import Mathlib

/-!
Verification development for the `pbase` storage-and-query engine
(`src/src/*.rs`).  Rust structures are shallowly embedded:

* machine integers become `Nat`/`Int` with explicit ranges;
* byte buffers become `List ℕ` (each entry a byte value);
* `HashMap`/`IndexMap` become association lists (`IndexMap` preserves
  insertion order, which the association list mirrors exactly; for
  `HashMap` the iteration order is arbitrary in Rust and noted where it
  matters);
* Rust panics (`panic!`, `unimplemented!`, failed `assert!`, indexing a
  missing key) are modelled by `Option`-valued functions returning `none`;
  out-of-range *byte reads* are modelled totally (missing bytes read as 0)
  and every theorem that depends on byte contents carries an in-bounds
  hypothesis.
-/

namespace Pbase

/-! ### Values (`src/src/value.rs`)

`Value` is the tagged scalar: `NULL`, a signed 32-bit integer (payload
modelled as `Int`, well-formed when in `[-2^31, 2^31)`), or an unsigned
byte (payload modelled as `ℕ`, well-formed when `< 256`). -/

inductive Value where
  | NULL : Value
  | I32 : ℤ → Value
  | U8 : ℕ → Value
  deriving DecidableEq, Repr

/-- Rust `i32::cmp` / `u8::cmp`: numeric comparison. -/
def cmpInt (a b : ℤ) : Ordering :=
  if a < b then Ordering.lt else if a = b then Ordering.eq else Ordering.gt

/-- `Value::cmp` from `src/src/value.rs` lines 26-40: `NULL` is below every
non-`NULL` value, same-tag values compare numerically, and comparing two
non-`NULL` values of different tags panics (modelled as `none`). -/
def Value.cmp? : Value → Value → Option Ordering
  | Value.NULL, Value.NULL => some Ordering.eq
  | Value.NULL, Value.I32 _ => some Ordering.lt
  | Value.NULL, Value.U8 _ => some Ordering.lt
  | Value.I32 _, Value.NULL => some Ordering.gt
  | Value.U8 _, Value.NULL => some Ordering.gt
  | Value.I32 a, Value.I32 b => some (cmpInt a b)
  | Value.U8 a, Value.U8 b => some (cmpInt (a : ℤ) (b : ℤ))
  | _, _ => none

/-- Totalisation of `Value.cmp?` used inside loops whose source comparisons
cannot hit the panic case (the panicking cross-tag case returns the junk
value `Ordering.eq`; every theorem using `cmpD` assumes tag compatibility,
under which `cmpD` agrees with `cmp?`). -/
def Value.cmpD (v w : Value) : Ordering := (Value.cmp? v w).getD Ordering.eq

/-! ### Field schemas and the byte codec (`src/src/schema.rs`) -/

inductive FieldSchema where
  | U8 : FieldSchema
  | I32 : FieldSchema
  deriving DecidableEq, Repr

/-- `FieldSchema::byte_size` (schema.rs lines 17-22). -/
def FieldSchema.byte_size : FieldSchema → ℕ
  | FieldSchema.U8 => 1
  | FieldSchema.I32 => 4

/-- Little-endian value of a byte list (general helper for
`u*::from_le_bytes`). -/
def leVal : List ℕ → ℕ
  | [] => 0
  | b :: rest => b + 256 * leVal rest

/-- The 4 little-endian bytes of a 32-bit pattern (`i32::to_le_bytes`). -/
def le4 (n : ℕ) : List ℕ :=
  [n % 256, n / 256 % 256, n / 65536 % 256, n / 16777216 % 256]

/-- The 8 little-endian bytes of a 64-bit pattern (`u64::to_le_bytes`). -/
def le8 (n : ℕ) : List ℕ :=
  [n % 256, n / 256 % 256, n / 65536 % 256, n / 16777216 % 256,
   n / 4294967296 % 256, n / 1099511627776 % 256,
   n / 281474976710656 % 256, n / 72057594037927936 % 256]

/-- Reinterpret a 32-bit pattern as a signed value (the effect of
`i32::from_le_bytes` on the assembled pattern). -/
def toSigned32 (n : ℕ) : ℤ :=
  if n < 2147483648 then (n : ℤ) else (n : ℤ) - 4294967296

/-- `FieldSchema::value_from_bytes` (schema.rs lines 24-35): reads exactly
`byte_size` bytes from the front of the slice.  The source panics when the
slice is shorter; here missing bytes read as 0 and theorems carry
in-bounds hypotheses. -/
def FieldSchema.value_from_bytes : FieldSchema → List ℕ → Value
  | FieldSchema.U8, bytes => Value.U8 (leVal (bytes.take 1))
  | FieldSchema.I32, bytes => Value.I32 (toSigned32 (leVal (bytes.take 4)))

/-- `Value::copy_bytes_to` (value.rs lines 11-17) as the byte string a value
writes: `NULL` writes nothing, `I32` its 4 little-endian bytes, `U8` its
single byte. -/
def Value.bytes : Value → List ℕ
  | Value.NULL => []
  | Value.I32 v => le4 ((v % 4294967296).toNat)
  | Value.U8 n => [n]

/-- Overwrite `bs` into `buf` starting at `pos` (the semantics of
`copy_from_slice` into `&mut buf[pos..]`; the source panics when the write
overruns, theorems keep writes in bounds). -/
def writeBytesAt (buf : List ℕ) (pos : ℕ) (bs : List ℕ) : List ℕ :=
  buf.take pos ++ bs ++ buf.drop (pos + bs.length)

/-! ### Table schemas (`src/src/schema.rs`) -/

/-- `TABLE_PTR_BYTE_SIZE` (schema.rs line 8). -/
def TABLE_PTR_BYTE_SIZE : ℕ := 8

structure TableSchema where
  name : String
  fields : List (String × FieldSchema)
  indices : List (String × List String)
  deriving DecidableEq, Repr

/-- `self.fields[name]` lookup; panics in the source when absent. -/
def TableSchema.fieldSchema? (s : TableSchema) (field : String) :
    Option FieldSchema :=
  s.fields.lookup field

/-- `TableSchema::row_byte_size` (schema.rs lines 46-51). -/
def TableSchema.row_byte_size (s : TableSchema) : ℕ :=
  (s.fields.map (fun p => p.2.byte_size)).sum

/-- Walk of `TableSchema::field_byte_pos` (schema.rs lines 53-64) from a
given starting offset. -/
def fieldBytePosAux : List (String × FieldSchema) → String → ℕ → Option ℕ
  | [], _, _ => none
  | (n, fs) :: rest, field, pos =>
      if n = field then some pos else fieldBytePosAux rest field (pos + fs.byte_size)

/-- `TableSchema::field_byte_pos` (schema.rs lines 53-64); the source panics
when the field is not declared (modelled by `none`). -/
def TableSchema.field_byte_pos? (s : TableSchema) (field : String) : Option ℕ :=
  fieldBytePosAux s.fields field 0

/-- `self.indices[name]` lookup; panics in the source when absent. -/
def TableSchema.indexFields? (s : TableSchema) (index : String) :
    Option (List String) :=
  s.indices.lookup index

/-- `TableSchema::index_row_byte_size` (schema.rs lines 66-77): the summed
byte sizes of the index fields plus the 8-byte row pointer; `none` models
the panics for an unknown index or an index field that is not declared. -/
def TableSchema.index_row_byte_size? (s : TableSchema) (index : String) :
    Option ℕ := do
  let ifields ← s.indexFields? index
  let sizes ← ifields.mapM (fun f => (s.fieldSchema? f).map FieldSchema.byte_size)
  pure (sizes.sum + TABLE_PTR_BYTE_SIZE)

/-- Walk of `TableSchema::index_field_byte_pos` (schema.rs lines 114-125). -/
def indexFieldBytePosAux (s : TableSchema) :
    List String → String → ℕ → Option ℕ
  | [], _, _ => none
  | f :: rest, field, pos =>
      if f = field then some pos
      else match s.fieldSchema? f with
        | none => none
        | some fs => indexFieldBytePosAux s rest field (pos + fs.byte_size)

/-- `TableSchema::index_field_byte_pos` (schema.rs lines 114-125); `none`
models the `unreachable!()` when the field is not part of the index and the
panic for an undeclared field. -/
def TableSchema.index_field_byte_pos? (s : TableSchema) (index field : String) :
    Option ℕ := do
  let ifields ← s.indexFields? index
  indexFieldBytePosAux s ifields field 0

/-- `TableSchema::index_row_ptr_field_byte_pos` (schema.rs lines 127-129). -/
def TableSchema.index_row_ptr_field_byte_pos? (s : TableSchema) (index : String) :
    Option ℕ :=
  (s.index_row_byte_size? index).map (fun n => n - TABLE_PTR_BYTE_SIZE)

/-- Walk of `TableSchema::parse_row_bytes` (schema.rs lines 131-144; the same
loop as `parse_row_bytes` in the src revision of common.rs lines 62-75):
decode every declared field at its running offset, in declaration order. -/
def parseRowAux (bytes : List ℕ) :
    List (String × FieldSchema) → ℕ → List (String × Value)
  | [], _ => []
  | (n, fs) :: rest, pos =>
      (n, fs.value_from_bytes (bytes.drop pos)) :: parseRowAux bytes rest (pos + fs.byte_size)

/-- `TableSchema::parse_row_bytes` (schema.rs lines 131-144). -/
def TableSchema.parse_row_bytes (s : TableSchema) (bytes : List ℕ) :
    List (String × Value) :=
  parseRowAux bytes s.fields 0

/-- `TableSchema::data_row_to_bytes` (schema.rs lines 79-88): start from a
zero-filled row buffer and copy each supplied value at its field offset.
`none` models the `field_byte_pos` panic for an undeclared field name. -/
def TableSchema.data_row_to_bytes (s : TableSchema)
    (values : List (String × Value)) : Option (List ℕ) :=
  values.foldlM
    (fun buf nv => do
      let pos ← s.field_byte_pos? nv.1
      pure (writeBytesAt buf pos nv.2.bytes))
    (List.replicate s.row_byte_size 0)

/-- The field-writing loop of `TableSchema::index_row_to_bytes`
(schema.rs lines 99-107): for every index field, in index declaration
order, copy the supplied value's bytes (if any) at the running offset.
`none` models the panic for an index field that is not declared. -/
def indexRowWriteAux (s : TableSchema) (values : List (String × Value)) :
    List String → ℕ → List ℕ → Option (ℕ × List ℕ)
  | [], pos, buf => some (pos, buf)
  | f :: rest, pos, buf => do
      let fs ← s.fieldSchema? f
      let buf' := match values.lookup f with
        | some v => writeBytesAt buf pos v.bytes
        | none => buf
      indexRowWriteAux s values rest (pos + fs.byte_size) buf'

/-- `TableSchema::index_row_to_bytes` (schema.rs lines 90-112): zero-filled
buffer of `index_row_byte_size`, supplied index-field values copied at
their offsets, then the 8 little-endian row-pointer bytes at the end. -/
def TableSchema.index_row_to_bytes (s : TableSchema) (index : String)
    (values : List (String × Value)) (row_ptr : ℕ) : Option (List ℕ) := do
  let size ← s.index_row_byte_size? index
  let ifields ← s.indexFields? index
  let (pos, buf) ← indexRowWriteAux s values ifields 0 (List.replicate size 0)
  pure (writeBytesAt buf pos (le8 row_ptr))

/-! ### Selections and row iteration (`src/src/schema.rs` lines 172-263)

`Selection` is referenced throughout src/ as `crate::common::Selection`
with variants `All` and `List(Vec<usize>)` (the revision of common.rs in
src/ predates it; the variants and their iteration semantics are fixed by
`TableRowIterator` in schema.rs lines 193-233). -/

inductive Selection where
  | All : Selection
  | List : List ℕ → Selection
  deriving DecidableEq, Repr

/-- The sequence of row positions an iterator over a selection yields
(`TableRowIterator::next_with_all_selection` / `next_with_positions`,
schema.rs lines 193-221): for `All` the positions `0, rowLen, 2·rowLen, …`
while below `totalLen`; for `List` the stored positions in order.  A zero
`rowLen` makes the source loop diverge; that case is mapped to `[]`. -/
def selectionPositions (sel : Selection) (rowLen totalLen : ℕ) : List ℕ :=
  match sel with
  | Selection.All =>
      if rowLen = 0 then []
      else (List.range ((totalLen + rowLen - 1) / rowLen)).map (fun k => k * rowLen)
  | Selection.List ps => ps

/-! ### Queries and filters (`src/src/query.rs`) -/

structure FieldSelector where
  name : String
  source : String
  deriving DecidableEq, Repr

/-- `FieldSelector::full_name` (query.rs lines 12-18). -/
def FieldSelector.full_name (f : FieldSelector) : String :=
  f.source ++ "." ++ f.name

inductive FilterSource where
  | Single : String → FilterSource
  | Multi : String → String → FilterSource
  deriving DecidableEq, Repr

/-- `FilterSource::new_multi` (query.rs lines 37-44): asserts the two tables
differ (a same-table pair panics, modelled by `none`) and orders the pair
canonically. -/
def FilterSource.new_multi? (table_lhs table_rhs : String) :
    Option FilterSource :=
  if table_lhs = table_rhs then none
  else if table_lhs ≤ table_rhs then some (FilterSource.Multi table_lhs table_rhs)
  else some (FilterSource.Multi table_rhs table_lhs)

inductive RhsValue where
  | Value : Value → RhsValue
  | Ref : FieldSelector → RhsValue
  deriving DecidableEq, Repr

structure RowFilter where
  field : FieldSelector
  op : Ordering
  rhs : RhsValue
  deriving DecidableEq, Repr

/-- `RowFilter::filter_source` (query.rs lines 86-93); `none` models the
panic of `FilterSource::new_multi` on a same-table reference filter. -/
def RowFilter.filter_source? (f : RowFilter) : Option FilterSource :=
  match f.rhs with
  | RhsValue.Value _ => some (FilterSource.Single f.field.source)
  | RhsValue.Ref reference => FilterSource.new_multi? f.field.source reference.source

/-- `RowFilter::is_multi_table` (query.rs lines 96-101). -/
def RowFilter.is_multi_table (f : RowFilter) : Bool :=
  match f.rhs with
  | RhsValue.Value _ => false
  | RhsValue.Ref _ => true

structure JoinContract where
  lhs : FieldSelector
  rhs : FieldSelector
  deriving DecidableEq, Repr

/-- `SelectQuery` (query.rs lines 130-135); the Rust field `from` is a Lean
keyword and is embedded as `fromTable`. -/
structure SelectQuery where
  fromTable : String
  joins : List JoinContract
  filters : List RowFilter
  deriving DecidableEq, Repr

/-! ### The select facade (`src/src/pbase.rs` lines 33-62)

`PBase::run_select_query` in the src revision: open the data file and the
schema of `query.from`, reject a data length that is not a multiple of the
row size with `InvalidTableSizeError`, then decode and return **every**
row (the query's filters and joins are not consulted), each row keyed by
its bare field name. -/

inductive PBaseError where
  | InvalidTableSizeError : PBaseError
  deriving DecidableEq, Repr

/-- `PBase::run_select_query` (pbase.rs lines 33-62) on the abstracted file
system: the schema and data bytes of `query.from` are passed directly.
`none` models the panic of `%` on a zero row size. -/
def run_select_query (schema : TableSchema) (tableBytes : List ℕ)
    (query : SelectQuery) : Option (Except PBaseError (List (List (String × Value)))) :=
  let rowLen := schema.row_byte_size
  if rowLen = 0 then none
  else if tableBytes.length % rowLen ≠ 0 then
    some (Except.error PBaseError.InvalidTableSizeError)
  else
    some (Except.ok
      ((List.range (tableBytes.length / rowLen)).map
        (fun k => schema.parse_row_bytes ((tableBytes.drop (k * rowLen)).take rowLen))))

/-! ### The linear scan filter (`src/src/query_tools.rs` lines 306-364) -/

/-- The per-row, per-filter body of `SelectQueryExecutor::scan_filter`
(query_tools.rs lines 333-353): for every position of the selection and
every table filter, push the position each time the filter is satisfied.
A literal filter is satisfied when `value.cmp(rhs) == filter.op` (the
comparison panics cross-tag, modelled by `none`); a reference filter hits
the `todo!()` at line 344 (modelled by `none`). -/
def scanFilterBody (schema : TableSchema) (tableBytes : List ℕ) (rowLen : ℕ)
    (table_filters : List RowFilter) (positions : List ℕ) : Option (List ℕ) :=
  positions.foldlM
    (fun acc pos =>
      table_filters.foldlM
        (fun acc2 filter =>
          match filter.rhs with
          | RhsValue.Value rhsVal => do
              let fpos ← schema.field_byte_pos? filter.field.name
              let fs ← schema.fieldSchema? filter.field.name
              let v := fs.value_from_bytes (((tableBytes.drop pos).take rowLen).drop fpos)
              let cmpRes ← v.cmp? rhsVal
              pure (if cmpRes = filter.op then acc2 ++ [pos] else acc2)
          | RhsValue.Ref _ => none)
        acc)
    []

/-- `SelectQueryExecutor::scan_filter` (query_tools.rs lines 306-364).
`none` models, in source order: the failed `assert!` on a non-multiple
table length (`%` by a zero row size also panics), the failed `assert!` on
an empty filter list, a panicking `filter_source()` call, and the panics
of the per-row body. -/
def scan_filter (current_selection : Selection) (filters : List RowFilter)
    (tableBytes : List ℕ) (schema : TableSchema) : Option Selection := do
  let rowLen := schema.row_byte_size
  if rowLen = 0 then none
  else if tableBytes.length % rowLen ≠ 0 then none
  else if filters.isEmpty then none
  else do
    let sources ← filters.mapM RowFilter.filter_source?
    let table_filters := ((filters.zip sources).filter
      (fun fs => match fs.2 with
        | FilterSource.Single source => source == schema.name
        | FilterSource.Multi source_lhs source_rhs =>
            source_lhs == schema.name && source_rhs == schema.name)).map Prod.fst
    let positions := selectionPositions current_selection rowLen tableBytes.length
    let filtered ← scanFilterBody schema tableBytes rowLen table_filters positions
    pure (Selection.List filtered)

/-! ### MultiTableView and inner join (`src/src/multi_table_view.rs`) -/

structure MultiTableView where
  view : List (List ℕ)
  tables : List (String × ℕ)
  deriving DecidableEq, Repr

/-- `HashMap::insert` on the table-registration map
(multi_table_view.rs lines 115-116): replace the binding when the key is
present, otherwise append it. -/
def insertTab (l : List (String × ℕ)) (k : String) (v : ℕ) : List (String × ℕ) :=
  if (l.lookup k).isSome then
    l.map (fun p => if p.1 = k then (k, v) else p)
  else l ++ [(k, v)]

/-- `TableReader::get_field_value` (schema.rs lines 166-169): locate the
field's byte offset and decode it from the row slice; `none` models the
panics for an undeclared field. -/
def get_field_value? (schema : TableSchema) (rowBytes : List ℕ)
    (field : String) : Option Value := do
  let fpos ← schema.field_byte_pos? field
  let fs ← schema.fieldSchema? field
  pure (fs.value_from_bytes (rowBytes.drop fpos))

/-- `MultiTableView::inner_join` (multi_table_view.rs lines 104-151):
register the rhs table, then for every current view row read the lhs match
field, iterate the rhs table inside its selection and, for every rhs row
whose match field is equal (derived `PartialEq` on `Value`), push the old
row's position list extended with the rhs row's absolute position.
`none` models the panics: missing lhs table registration and undeclared
match fields. -/
def MultiTableView.inner_join (mtv : MultiTableView) (selection : Selection)
    (lhs_table_name rhs_table_name lhs_match_field_name rhs_match_field_name : String)
    (tableBytes : String → List ℕ) (tableSchemas : String → TableSchema) :
    Option MultiTableView := do
  let tables' := insertTab mtv.tables rhs_table_name mtv.tables.length
  let lhs_table_idx ← tables'.lookup lhs_table_name
  let rhsSchema := tableSchemas rhs_table_name
  let positions := selectionPositions selection rhsSchema.row_byte_size
    (tableBytes rhs_table_name).length
  let newView ← mtv.view.foldlM
    (fun acc old_view_row => do
      let lhs_row_pos := old_view_row.getD lhs_table_idx 0
      let lhs_value ← get_field_value? (tableSchemas lhs_table_name)
        ((tableBytes lhs_table_name).drop lhs_row_pos) lhs_match_field_name
      positions.foldlM
        (fun acc2 pos => do
          let rhs_value ← get_field_value? rhsSchema
            (((tableBytes rhs_table_name).drop pos).take rhsSchema.row_byte_size)
            rhs_match_field_name
          pure (if lhs_value = rhs_value then acc2 ++ [old_view_row ++ [pos]] else acc2))
        acc)
    []
  pure { view := newView, tables := tables' }

/-! ### Binary search primitives

The exclusive-bound binary narrowing routines.  The `binary_narrow_*`
functions live in the final revision of common.rs, which is absent from
src/ (the src revision of common.rs predates them); `src/src/query_tools.rs`
imports and calls them, and common.rs's `find_insert_pos_in_index`
(lines 94-134 of the src revision) contains the two loops inline.  `Int.tdiv`
is Rust's truncating `i32` division. -/

/-- Rust's truncating midpoint `(i + j) / 2` lies strictly between exclusive
bounds that are at least two apart. -/
theorem int_half_lt_of_lt {i j : ℤ} (h : i + 1 < j) :
    i < Int.tdiv (i + j) 2 ∧ Int.tdiv (i + j) 2 < j := by
  rcases hn : i + j with m | m
  · have hdiv : Int.tdiv (Int.ofNat m) 2 = ((m / 2 : ℕ) : ℤ) := rfl
    rw [hdiv]
    rw [Int.ofNat_eq_natCast] at hn
    constructor <;> omega
  · have hdiv : Int.tdiv (Int.negSucc m) 2 = -(((m + 1) / 2 : ℕ) : ℤ) := rfl
    rw [hdiv]
    rw [Int.negSucc_eq] at hn
    constructor <;> omega

/-- The `Find LHS` loop of common.rs `find_insert_pos_in_index`
(src revision lines 96-112): shrink `(i, j)` around the last index whose
probed value is less than the target; `pred` is the comparison of the
probed value against the target. -/
def narrowLhs (pred : ℤ → Ordering) (i j : ℤ) : ℤ :=
  if h : i + 1 ≥ j then i
  else if pred (Int.tdiv (i + j) 2) = Ordering.lt then
    narrowLhs pred (Int.tdiv (i + j) 2) j
  else
    narrowLhs pred i (Int.tdiv (i + j) 2)
termination_by (j - i).toNat
decreasing_by
  · have hb := int_half_lt_of_lt (show i + 1 < j by omega)
    omega
  · have hb := int_half_lt_of_lt (show i + 1 < j by omega)
    omega

/-- The `Find RHS` loop of common.rs `find_insert_pos_in_index`
(src revision lines 114-132): shrink `(i, j)` around the first index whose
probed value is greater than the target. -/
def narrowRhs (pred : ℤ → Ordering) (i j : ℤ) : ℤ :=
  if h : i + 1 ≥ j then j
  else if pred (Int.tdiv (i + j) 2) = Ordering.gt then
    narrowRhs pred i (Int.tdiv (i + j) 2)
  else
    narrowRhs pred (Int.tdiv (i + j) 2) j
termination_by (j - i).toNat
decreasing_by
  · have hb := int_half_lt_of_lt (show i + 1 < j by omega)
    omega
  · have hb := int_half_lt_of_lt (show i + 1 < j by omega)
    omega

/-- Modelled from the spec: `binary_narrow_to_range_exclusive` (§4.4 and
scenario 6 of the spec; called at query_tools.rs lines 241 and 472).  Its
implementation is missing from src/ — the src revision of common.rs
predates it — but §4.4 specifies it as the pair of the last-below and
first-above boundaries, exactly the two loops that common.rs's
`find_insert_pos_in_index` (lines 96-134) runs inline: the LHS loop over
the full exclusive range, then the RHS loop continuing from the found
left boundary. -/
def binary_narrow_to_range_exclusive (lhs_idx rhs_idx : ℤ)
    (pred : ℤ → Ordering) : ℤ × ℤ :=
  (narrowLhs pred lhs_idx rhs_idx,
   narrowRhs pred (narrowLhs pred lhs_idx rhs_idx) rhs_idx)

/-- Numeric rank of an `Ordering`, used to state that a comparator is
monotone. -/
def ordRank : Ordering → ℕ
  | Ordering.lt => 0
  | Ordering.eq => 1
  | Ordering.gt => 2

/-! ### Index insert-position search -/

/-- The per-field narrowing loop of `find_insert_pos_in_index`
(common.rs src revision lines 88-138; equivalently query_tools.rs
lines 467-479 where the two inline loops are the call to
`binary_narrow_to_range_exclusive`): walk the index fields in declaration
order, narrowing the exclusive band with each field's probe value.
`none` models the panics for an undeclared index field or a probe list
shorter than the field list.  `Int.toNat` of the probe index matches the
source's `usize` cast, which only ever sees non-negative indices. -/
def findInsertPosAux (schema : TableSchema) (indexBytes : List ℕ)
    (index_values : List Value) (index_row_size : ℕ) :
    List String → ℕ → ℕ → ℤ → ℤ → Option (ℤ × ℤ)
  | [], _, _, lhs_idx, rhs_idx => some (lhs_idx, rhs_idx)
  | index_field_name :: rest, field_byte_pos, field_idx, lhs_idx, rhs_idx => do
      let field_schema ← schema.fieldSchema? index_field_name
      let cmp_value ← index_values.get? field_idx
      let res := binary_narrow_to_range_exclusive lhs_idx rhs_idx
        (fun i => (field_schema.value_from_bytes
          (indexBytes.drop (i.toNat * index_row_size + field_byte_pos))).cmpD cmp_value)
      findInsertPosAux schema indexBytes index_values index_row_size rest
        (field_byte_pos + field_schema.byte_size) (field_idx + 1) res.1 res.2

/-- `find_insert_pos_in_index` (common.rs src revision lines 77-141 /
query_tools.rs lines 456-482): starting from the exclusive band
`(-1, entry count)`, narrow per index field and return the final right
boundary as the insert position. -/
def find_insert_pos_in_index (index_name : String) (indexBytes : List ℕ)
    (index_values : List Value) (schema : TableSchema) : Option ℕ := do
  let index_row_size ← schema.index_row_byte_size? index_name
  let ifields ← schema.indexFields? index_name
  let res ← findInsertPosAux schema indexBytes index_values index_row_size
    ifields 0 0 (-1) ((indexBytes.length / index_row_size : ℕ) : ℤ)
  pure res.2.toNat

/-- `PBase::find_insert_pos_in_index` (pbase.rs lines 151-218): the same
per-field narrowing as common.rs, but the function ends in
`unimplemented!()` (line 217) — the computed band is discarded and the
call panics unconditionally, modelled as `none`. -/
def pbase_find_insert_pos_in_index (index_name : String)
    (index_file_mmap : List ℕ) (index_values : List Value)
    (schema : TableSchema) : Option ℕ := do
  let index_row_size ← schema.index_row_byte_size? index_name
  let ifields ← schema.indexFields? index_name
  let _res ← findInsertPosAux schema index_file_mmap index_values index_row_size
    ifields 0 0 (-1) ((index_file_mmap.length / index_row_size : ℕ) : ℤ)
  none

/-! ### Abstractions for stating index-order properties

These definitions support the statement of the insert-position claim: a
per-field order embedding of comparable `Value`s into `ℤ` (order-isomorphic
to `Value::cmp` on the values a given field can hold) and lexicographic
predicates over composite keys. -/

/-- A value is comparable with the contents of a field of schema `fs`
exactly when it is `NULL` or carries the field's tag (`Value::cmp` panics
otherwise). -/
def compatB : FieldSchema → Value → Bool
  | _, Value.NULL => true
  | FieldSchema.U8, Value.U8 _ => true
  | FieldSchema.I32, Value.I32 _ => true
  | _, _ => false

/-- Payload well-formedness: the payloads representable by the Rust types
`i32` and `u8`. -/
def Value.wfB : Value → Bool
  | Value.NULL => true
  | Value.I32 v => decide (-2147483648 ≤ v ∧ v < 2147483648)
  | Value.U8 n => decide (n < 256)

/-- Order embedding of the values comparable with a field of schema `fs`
into `ℤ`: `NULL` maps below every well-formed payload. -/
def fieldEmbed (fs : FieldSchema) : Value → ℤ
  | Value.NULL => match fs with
    | FieldSchema.U8 => -1
    | FieldSchema.I32 => -2147483649
  | Value.I32 v => v
  | Value.U8 n => (n : ℤ)

/-- Byte offset of the `m`-th index field inside an index entry
(the running `field_byte_pos` of the source loops). -/
def prefixSizes (fss : List FieldSchema) (m : ℕ) : ℕ :=
  ((fss.take m).map FieldSchema.byte_size).sum

/-- The embedded composite key of entry `i` of an index image: component
`m` is the decoded value of the `m`-th index field at its offset inside
entry `i`. -/
def entryKeyZ (indexBytes : List ℕ) (rowSize : ℕ) (fss : List FieldSchema)
    (i : ℕ) : ℕ → ℤ :=
  fun m => fieldEmbed (fss.getD m FieldSchema.U8)
    ((fss.getD m FieldSchema.U8).value_from_bytes
      (indexBytes.drop (i * rowSize + prefixSizes fss m)))

/-- The embedded probe key: component `m` is the `m`-th supplied probe
value. -/
def probeKeyZ (fss : List FieldSchema) (K : List Value) : ℕ → ℤ :=
  fun m => fieldEmbed (fss.getD m FieldSchema.U8) (K.getD m Value.NULL)

/-- First `n` components of `a` and `b` agree. -/
def lexAgree (n : ℕ) (a b : ℕ → ℤ) : Prop :=
  ∀ m, m < n → a m = b m

/-- `a` is lexicographically strictly below `b` on the first `n`
components. -/
def lexLT (n : ℕ) (a b : ℕ → ℤ) : Prop :=
  ∃ m, m < n ∧ (∀ g, g < m → a g = b g) ∧ a m < b m

/-- Lexicographic `≤` on the first `n` components. -/
def lexLE (n : ℕ) (a b : ℕ → ℤ) : Prop :=
  lexAgree n a b ∨ lexLT n a b

/-! ### Concrete instances used by the claim theorems

These mirror the data of the repository's own tests
(`src/tests/single_table_integration_test.rs`,
`src/tests/integration_test.rs`, the unit tests of common.rs,
query_tools.rs and multi_table_view.rs) and of the spec's §8 scenarios. -/

/-- The table `t(field1: i32, field2: i32, field3: i32)` with index
`ix(field1, field2)` of spec scenario 1 / the single-table integration
test. -/
def tSchema : TableSchema :=
  { name := "t",
    fields := [("field1", FieldSchema.I32), ("field2", FieldSchema.I32),
               ("field3", FieldSchema.I32)],
    indices := [("ix", ["field1", "field2"])] }

/-- The data-file image of `t` holding the rows `(1,10,100)`, `(2,20,200)`,
`(3,30,300)`. -/
def tBytes : List ℕ :=
  [1,0,0,0, 10,0,0,0, 100,0,0,0,
   2,0,0,0, 20,0,0,0, 200,0,0,0,
   3,0,0,0, 30,0,0,0, 44,1,0,0]

/-- The select query `SELECT FROM t WHERE field1 <op> 2` of spec
scenario 1. -/
def tQuery (op : Ordering) : SelectQuery :=
  { fromTable := "t", joins := [],
    filters := [{ field := { name := "field1", source := "t" },
                  op := op, rhs := RhsValue.Value (Value.I32 2) }] }

/-- The table `s(f1: u8, f2: u8)` of spec scenario 5 / the cross-row
reference-filter integration test. -/
def sSchema : TableSchema :=
  { name := "s", fields := [("f1", FieldSchema.U8), ("f2", FieldSchema.U8)],
    indices := [] }

/-- The data-file image of `s` holding the rows `(2,2)`, `(3,4)`, `(1,1)`,
`(6,5)` in insertion order. -/
def sBytes : List ℕ := [2,2, 3,4, 1,1, 6,5]

/-- The cross-row same-table reference filter `f1 = f2` on table `s`. -/
def sRefFilter : RowFilter :=
  { field := { name := "f1", source := "s" },
    op := Ordering.eq,
    rhs := RhsValue.Ref { name := "f2", source := "s" } }

/-- `SELECT FROM s WHERE f1 = f2` of spec scenario 5. -/
def sQuery : SelectQuery :=
  { fromTable := "s", joins := [], filters := [sRefFilter] }

/-- A one-column table used to exercise `scan_filter` with two literal
filters. -/
def cSchema : TableSchema :=
  { name := "c", fields := [("f1", FieldSchema.U8)], indices := [] }

/-- A literal filter `f1 <op> <v>` on table `c`. -/
def cFilter (op : Ordering) (v : ℕ) : RowFilter :=
  { field := { name := "f1", source := "c" },
    op := op, rhs := RhsValue.Value (Value.U8 v) }

/-- The schema of the common.rs unit test `fake_table(col1: i32)` with
single-field index `fake_index(col1)`. -/
def fakeSchema : TableSchema :=
  { name := "fake_table", fields := [("col1", FieldSchema.I32)],
    indices := [("fake_index", ["col1"])] }

/-- The index image of the common.rs unit test: entries with keys
`0, 0, 1, 1, 3, 3` (each 4 key bytes plus an 8-byte pointer). -/
def fakeIndexBytes : List ℕ :=
  ([0,0,1,1,3,3].map (fun v => [v,0,0,0, 0,0,0,0,0,0,0,0])).flatten

/-- The sorted probe sequence `[0,0,0,1,1,1,3,3,3]` of spec scenario 6. -/
def probeSeq : ℤ → ℤ := fun i => ([0,0,0,1,1,1,3,3,3] : List ℤ).getD i.toNat 0

/-! ### Correctness of the binary narrowing loops -/

theorem ordRank_le_zero {o : Ordering} (h : ordRank o ≤ 0) : o = Ordering.lt := by
  cases o <;> simp [ordRank] at h ⊢

theorem ordRank_of_ne_gt {o : Ordering} (h : o ≠ Ordering.gt) : ordRank o ≤ 1 := by
  cases o <;> simp [ordRank] <;> exact absurd rfl h

theorem ne_gt_of_ordRank_le_one {o : Ordering} (h : ordRank o ≤ 1) :
    o ≠ Ordering.gt := by
  cases o <;> simp [ordRank] at h ⊢

/-- Loop invariant proof for `narrowLhs`: starting from any sub-bracket of
the exclusive range `(lhs, rhs)` whose left end is `lhs` or probes `lt` and
whose right end is `rhs` or probes non-`lt`, the loop lands on the last
index probing `lt` (or `lhs` when none exists). -/
theorem narrowLhs_spec_aux (pred : ℤ → Ordering) (lhs rhs : ℤ)
    (mono : ∀ x y : ℤ, lhs < x → x ≤ y → y < rhs →
      ordRank (pred x) ≤ ordRank (pred y)) :
    ∀ (n : ℕ) (i j : ℤ), (j - i).toNat ≤ n → lhs ≤ i → i < j → j ≤ rhs →
      (i = lhs ∨ pred i = Ordering.lt) → (j = rhs ∨ pred j ≠ Ordering.lt) →
      i ≤ narrowLhs pred i j ∧ narrowLhs pred i j < j ∧
      (narrowLhs pred i j = lhs ∨ pred (narrowLhs pred i j) = Ordering.lt) ∧
      ∀ k : ℤ, narrowLhs pred i j < k → k < rhs → pred k ≠ Ordering.lt := by
  intro n
  induction n with
  | zero =>
    intro i j h1 _ h3 _ _ _
    exact absurd h1 (by omega)
  | succ n ih =>
    intro i j hn hli hij hjr hi hj
    rw [narrowLhs]
    by_cases hstop : i + 1 ≥ j
    · rw [dif_pos hstop]
      refine ⟨le_refl i, by omega, hi, ?_⟩
      intro k hk1 hk2 hklt
      rcases hj with rfl | hpj
      · omega
      · have hm := mono j k (by omega) (by omega) hk2
        rw [hklt] at hm
        exact hpj (ordRank_le_zero (by simpa [ordRank] using hm))
    · rw [dif_neg hstop]
      have hmid := int_half_lt_of_lt (show i + 1 < j by omega)
      by_cases hp : pred (Int.tdiv (i + j) 2) = Ordering.lt
      · rw [if_pos hp]
        obtain ⟨ha, hb, hc, hd⟩ :=
          ih (Int.tdiv (i + j) 2) j (by omega) (by omega) hmid.2 hjr (Or.inr hp) hj
        exact ⟨by omega, hb, hc, hd⟩
      · rw [if_neg hp]
        obtain ⟨ha, hb, hc, hd⟩ :=
          ih i (Int.tdiv (i + j) 2) (by omega) hli hmid.1 (by omega) hi (Or.inr hp)
        exact ⟨ha, by omega, hc, hd⟩

/-- `narrowLhs` over the full exclusive range `(lhs, rhs)` finds the last
index probing `lt`, or `lhs` when none exists. -/
theorem narrowLhs_spec (pred : ℤ → Ordering) (lhs rhs : ℤ) (h : lhs < rhs)
    (mono : ∀ x y : ℤ, lhs < x → x ≤ y → y < rhs →
      ordRank (pred x) ≤ ordRank (pred y)) :
    lhs ≤ narrowLhs pred lhs rhs ∧ narrowLhs pred lhs rhs < rhs ∧
    (narrowLhs pred lhs rhs = lhs ∨ pred (narrowLhs pred lhs rhs) = Ordering.lt) ∧
    ∀ k : ℤ, narrowLhs pred lhs rhs < k → k < rhs → pred k ≠ Ordering.lt :=
  narrowLhs_spec_aux pred lhs rhs mono (rhs - lhs).toNat lhs rhs (le_refl _)
    (le_refl _) h (le_refl _) (Or.inl rfl) (Or.inl rfl)

/-- Loop invariant proof for `narrowRhs`, symmetric to
`narrowLhs_spec_aux`. -/
theorem narrowRhs_spec_aux (pred : ℤ → Ordering) (lhs rhs : ℤ)
    (mono : ∀ x y : ℤ, lhs < x → x ≤ y → y < rhs →
      ordRank (pred x) ≤ ordRank (pred y)) :
    ∀ (n : ℕ) (i j : ℤ), (j - i).toNat ≤ n → lhs ≤ i → i < j → j ≤ rhs →
      (i = lhs ∨ pred i ≠ Ordering.gt) → (j = rhs ∨ pred j = Ordering.gt) →
      i < narrowRhs pred i j ∧ narrowRhs pred i j ≤ j ∧
      (narrowRhs pred i j = rhs ∨ pred (narrowRhs pred i j) = Ordering.gt) ∧
      ∀ k : ℤ, lhs < k → k < narrowRhs pred i j → pred k ≠ Ordering.gt := by
  intro n
  induction n with
  | zero =>
    intro i j h1 _ h3 _ _ _
    exact absurd h1 (by omega)
  | succ n ih =>
    intro i j hn hli hij hjr hi hj
    rw [narrowRhs]
    by_cases hstop : i + 1 ≥ j
    · rw [dif_pos hstop]
      refine ⟨hij, le_refl j, hj, ?_⟩
      intro k hk1 hk2
      rcases hi with rfl | hpi
      · exact absurd hk1 (by omega)
      · have hm := mono k i hk1 (by omega) (by omega)
        exact ne_gt_of_ordRank_le_one (le_trans hm (ordRank_of_ne_gt hpi))
    · rw [dif_neg hstop]
      have hmid := int_half_lt_of_lt (show i + 1 < j by omega)
      by_cases hp : pred (Int.tdiv (i + j) 2) = Ordering.gt
      · rw [if_pos hp]
        obtain ⟨ha, hb, hc, hd⟩ :=
          ih i (Int.tdiv (i + j) 2) (by omega) hli hmid.1 (by omega) hi (Or.inr hp)
        exact ⟨ha, by omega, hc, hd⟩
      · rw [if_neg hp]
        obtain ⟨ha, hb, hc, hd⟩ :=
          ih (Int.tdiv (i + j) 2) j (by omega) (by omega) hmid.2 hjr (Or.inr hp) hj
        exact ⟨by omega, hb, hc, hd⟩

/-- `narrowRhs` over the exclusive range `(lhs, rhs)` finds the first index
probing `gt`, or `rhs` when none exists. -/
theorem narrowRhs_spec (pred : ℤ → Ordering) (lhs rhs : ℤ) (h : lhs < rhs)
    (mono : ∀ x y : ℤ, lhs < x → x ≤ y → y < rhs →
      ordRank (pred x) ≤ ordRank (pred y)) :
    lhs < narrowRhs pred lhs rhs ∧ narrowRhs pred lhs rhs ≤ rhs ∧
    (narrowRhs pred lhs rhs = rhs ∨ pred (narrowRhs pred lhs rhs) = Ordering.gt) ∧
    ∀ k : ℤ, lhs < k → k < narrowRhs pred lhs rhs → pred k ≠ Ordering.gt :=
  narrowRhs_spec_aux pred lhs rhs mono (rhs - lhs).toNat lhs rhs (le_refl _)
    (le_refl _) h (le_refl _) (Or.inl rfl) (Or.inl rfl)

/-- Full characterisation of `binary_narrow_to_range_exclusive` for a
monotone comparator: the returned pair `(L, R)` brackets the equal band,
`L` being the last index probing `lt` (or `lhs`) and `R` the first index
probing `gt` (or `rhs`). -/
theorem binary_narrow_spec (lhs rhs : ℤ) (pred : ℤ → Ordering) (h : lhs < rhs)
    (mono : ∀ x y : ℤ, lhs < x → x ≤ y → y < rhs →
      ordRank (pred x) ≤ ordRank (pred y)) :
    lhs ≤ (binary_narrow_to_range_exclusive lhs rhs pred).1 ∧
    (binary_narrow_to_range_exclusive lhs rhs pred).1 <
      (binary_narrow_to_range_exclusive lhs rhs pred).2 ∧
    (binary_narrow_to_range_exclusive lhs rhs pred).2 ≤ rhs ∧
    ((binary_narrow_to_range_exclusive lhs rhs pred).1 = lhs ∨
      pred (binary_narrow_to_range_exclusive lhs rhs pred).1 = Ordering.lt) ∧
    (∀ k : ℤ, (binary_narrow_to_range_exclusive lhs rhs pred).1 < k → k < rhs →
      pred k ≠ Ordering.lt) ∧
    ((binary_narrow_to_range_exclusive lhs rhs pred).2 = rhs ∨
      pred (binary_narrow_to_range_exclusive lhs rhs pred).2 = Ordering.gt) ∧
    ∀ k : ℤ, lhs < k → k < (binary_narrow_to_range_exclusive lhs rhs pred).2 →
      pred k ≠ Ordering.gt := by
  obtain ⟨hL1, hL2, hL3, hL4⟩ := narrowLhs_spec pred lhs rhs h mono
  have mono' : ∀ x y : ℤ, narrowLhs pred lhs rhs < x → x ≤ y → y < rhs →
      ordRank (pred x) ≤ ordRank (pred y) :=
    fun x y hx hxy hy => mono x y (by omega) hxy hy
  obtain ⟨hR1, hR2, hR3, hR4⟩ := narrowRhs_spec pred (narrowLhs pred lhs rhs) rhs hL2 mono'
  simp only [binary_narrow_to_range_exclusive]
  refine ⟨hL1, hR1, hR2, hL3, hL4, hR3, ?_⟩
  intro k hk1 hk2
  by_cases hkL : narrowLhs pred lhs rhs < k
  · exact hR4 k hkL hk2
  · rcases hL3 with hL | hL
    · exact absurd hk1 (by omega)
    · have hm := mono k (narrowLhs pred lhs rhs) hk1 (by omega) hL2
      rw [hL] at hm
      have hk := ordRank_le_zero (by simpa [ordRank] using hm)
      rw [hk]
      simp

/-- Two indices both satisfying the last-`lt` characterisation coincide. -/
theorem narrowL_unique (pred : ℤ → Ordering) (lhs rhs L1 L2 : ℤ)
    (h1 : lhs ≤ L1 ∧ L1 < rhs ∧ (L1 = lhs ∨ pred L1 = Ordering.lt) ∧
      ∀ k : ℤ, L1 < k → k < rhs → pred k ≠ Ordering.lt)
    (h2 : lhs ≤ L2 ∧ L2 < rhs ∧ (L2 = lhs ∨ pred L2 = Ordering.lt) ∧
      ∀ k : ℤ, L2 < k → k < rhs → pred k ≠ Ordering.lt) : L1 = L2 := by
  have key : ∀ A B : ℤ,
      (lhs ≤ A ∧ A < rhs ∧ (A = lhs ∨ pred A = Ordering.lt) ∧
        ∀ k : ℤ, A < k → k < rhs → pred k ≠ Ordering.lt) →
      (lhs ≤ B ∧ B < rhs ∧ (B = lhs ∨ pred B = Ordering.lt) ∧
        ∀ k : ℤ, B < k → k < rhs → pred k ≠ Ordering.lt) →
      A < B → False := by
    intro A B hA hB hAB
    rcases hB.2.2.1 with hBl | hBp
    · omega
    · exact hA.2.2.2 B hAB hB.2.1 hBp
  rcases lt_trichotomy L1 L2 with h | h | h
  · exact absurd h (fun hh => key L1 L2 h1 h2 hh)
  · exact h
  · exact absurd h (fun hh => key L2 L1 h2 h1 hh)

/-- Two indices both satisfying the first-`gt` characterisation coincide. -/
theorem narrowR_unique (pred : ℤ → Ordering) (lhs rhs R1 R2 : ℤ)
    (h1 : lhs < R1 ∧ R1 ≤ rhs ∧ (R1 = rhs ∨ pred R1 = Ordering.gt) ∧
      ∀ k : ℤ, lhs < k → k < R1 → pred k ≠ Ordering.gt)
    (h2 : lhs < R2 ∧ R2 ≤ rhs ∧ (R2 = rhs ∨ pred R2 = Ordering.gt) ∧
      ∀ k : ℤ, lhs < k → k < R2 → pred k ≠ Ordering.gt) : R1 = R2 := by
  have key : ∀ A B : ℤ,
      (lhs < A ∧ A ≤ rhs ∧ (A = rhs ∨ pred A = Ordering.gt) ∧
        ∀ k : ℤ, lhs < k → k < A → pred k ≠ Ordering.gt) →
      (lhs < B ∧ B ≤ rhs ∧ (B = rhs ∨ pred B = Ordering.gt) ∧
        ∀ k : ℤ, lhs < k → k < B → pred k ≠ Ordering.gt) →
      A < B → False := by
    intro A B hA hB hAB
    rcases hA.2.2.1 with hAr | hAp
    · omega
    · exact hB.2.2.2 A hA.1 hAB hAp
  rcases lt_trichotomy R1 R2 with h | h | h
  · exact absurd h (fun hh => key R1 R2 h1 h2 hh)
  · exact h
  · exact absurd h (fun hh => key R2 R1 h2 h1 hh)

theorem cmpInt_eq_lt {a b : ℤ} : cmpInt a b = Ordering.lt ↔ a < b := by
  unfold cmpInt
  split_ifs <;> simp_all <;> omega

theorem cmpInt_eq_gt {a b : ℤ} : cmpInt a b = Ordering.gt ↔ b < a := by
  unfold cmpInt
  split_ifs <;> simp_all <;> omega

theorem cmpInt_eq_eq {a b : ℤ} : cmpInt a b = Ordering.eq ↔ a = b := by
  unfold cmpInt
  split_ifs <;> simp_all <;> omega

theorem cmpInt_rank_mono {a b t : ℤ} (h : a ≤ b) :
    ordRank (cmpInt a t) ≤ ordRank (cmpInt b t) := by
  unfold cmpInt
  split_ifs <;> simp [ordRank] <;> omega

/-- Pinning lemma: a monotone comparator's narrowing result is the unique
pair satisfying the boundary characterisation. -/
theorem binary_narrow_eq_of (lhs rhs : ℤ) (pred : ℤ → Ordering) (h : lhs < rhs)
    (mono : ∀ x y : ℤ, lhs < x → x ≤ y → y < rhs →
      ordRank (pred x) ≤ ordRank (pred y)) (L R : ℤ)
    (hL : lhs ≤ L ∧ L < rhs ∧ (L = lhs ∨ pred L = Ordering.lt) ∧
      ∀ k : ℤ, L < k → k < rhs → pred k ≠ Ordering.lt)
    (hR : lhs < R ∧ R ≤ rhs ∧ (R = rhs ∨ pred R = Ordering.gt) ∧
      ∀ k : ℤ, lhs < k → k < R → pred k ≠ Ordering.gt) :
    binary_narrow_to_range_exclusive lhs rhs pred = (L, R) := by
  obtain ⟨a1, a2, a3, a4, a5, a6, a7⟩ := binary_narrow_spec lhs rhs pred h mono
  have hLe : (binary_narrow_to_range_exclusive lhs rhs pred).1 = L :=
    narrowL_unique pred lhs rhs _ L ⟨a1, by omega, a4, a5⟩ hL
  have hRe : (binary_narrow_to_range_exclusive lhs rhs pred).2 = R :=
    narrowR_unique pred lhs rhs _ R ⟨by omega, a3, a6, a7⟩ hR
  exact Prod.ext_iff.mpr ⟨hLe, hRe⟩

/-- The probe sequence `[0,0,0,1,1,1,3,3,3]` is sorted over the exclusive
range `(-1, 9)`. -/
theorem probeSeq_mono : ∀ x y : ℤ, -1 < x → x ≤ y → y < 9 →
    probeSeq x ≤ probeSeq y := by
  intro x y hx hxy hy
  have hx9 : x < 9 := by omega
  interval_cases x <;> interval_cases y <;> decide

/-! ### Lexicographic order and embedding lemmas -/

theorem lexLT_mono {n n' : ℕ} (h : n ≤ n') {a b : ℕ → ℤ} :
    lexLT n a b → lexLT n' a b :=
  fun ⟨m, hm, hg, hlt⟩ => ⟨m, by omega, hg, hlt⟩

theorem lexLT_asymm {n : ℕ} {a b : ℕ → ℤ} (h1 : lexLT n a b)
    (h2 : lexLE n b a) : False := by
  obtain ⟨m, hm, hg, hlt⟩ := h1
  rcases h2 with hag | ⟨m', hm', hg', hlt'⟩
  · have := hag m hm
    omega
  · rcases lt_trichotomy m' m with hc | hc | hc
    · have := hg m' hc
      omega
    · subst hc
      omega
    · have := hg' m hc
      omega

/-- In a lexicographic comparison whose two sides agree with a common
reference on the first `m` components, the `m`-th components are ordered
like the full keys. -/
theorem lex_step {n m : ℕ} (hmn : m < n) {a b c : ℕ → ℤ} (hab : lexLE n a b)
    (hac : lexAgree m a c) (hbc : lexAgree m b c) : a m ≤ b m := by
  rcases hab with hag | ⟨m0, hm0, hg0, hlt0⟩
  · exact le_of_eq (hag m hmn)
  · rcases lt_trichotomy m0 m with hc | hc | hc
    · have h1 := hac m0 hc
      have h2 := hbc m0 hc
      omega
    · subst hc
      omega
    · have := hg0 m hc
      omega

/-- On compatible, well-formed values `Value.cmpD` agrees with the integer
comparison of the order embedding. -/
theorem cmpD_embed (fs : FieldSchema) (v w : Value)
    (hv1 : compatB fs v = true) (hv2 : v.wfB = true)
    (hw1 : compatB fs w = true) (hw2 : w.wfB = true) :
    Value.cmpD v w = cmpInt (fieldEmbed fs v) (fieldEmbed fs w) := by
  cases fs <;> cases v <;> cases w <;>
    simp_all [compatB, Value.wfB, Value.cmpD, Value.cmp?, fieldEmbed] <;>
    (unfold cmpInt; split_ifs <;> first | rfl | omega | simp_all | skip) <;>
    omega

theorem value_from_bytes_compatB (fs : FieldSchema) (bytes : List ℕ) :
    compatB fs (fs.value_from_bytes bytes) = true := by
  cases fs <;> rfl

theorem leVal_lt_pow (l : List ℕ) (h : ∀ b ∈ l, b < 256) :
    leVal l < 256 ^ l.length := by
  induction l with
  | nil => simp [leVal]
  | cons b rest ih =>
    have hb : b < 256 := h b (List.mem_cons_self b rest)
    have hr := ih (fun x hx => h x (List.mem_cons_of_mem b hx))
    simp only [leVal, List.length_cons, pow_succ]
    omega

theorem value_from_bytes_wfB (fs : FieldSchema) (bytes : List ℕ)
    (h : ∀ b ∈ bytes, b < 256) : (fs.value_from_bytes bytes).wfB = true := by
  have htake : ∀ k, ∀ b ∈ bytes.take k, b < 256 :=
    fun k b hb => h b (List.mem_of_mem_take hb)
  cases fs with
  | U8 =>
    have h1 := leVal_lt_pow (bytes.take 1) (htake 1)
    have h2 : (256 : ℕ) ^ (bytes.take 1).length ≤ 256 ^ 1 :=
      Nat.pow_le_pow_right (by omega) (by simpa using bytes.length_take_le 1)
    simp only [FieldSchema.value_from_bytes, Value.wfB, decide_eq_true_eq]
    omega
  | I32 =>
    have h1 := leVal_lt_pow (bytes.take 4) (htake 4)
    have h2 : (256 : ℕ) ^ (bytes.take 4).length ≤ 256 ^ 4 :=
      Nat.pow_le_pow_right (by omega) (by simpa using bytes.length_take_le 4)
    simp only [FieldSchema.value_from_bytes, Value.wfB, toSigned32,
      decide_eq_true_eq]
    split_ifs <;> omega

/-! ### List helper lemmas -/

theorem mapM_some_length {α β : Type} (f : α → Option β) :
    ∀ {l : List α} {r : List β}, l.mapM f = some r → r.length = l.length := by
  intro l
  induction l with
  | nil =>
    intro r h
    rw [List.mapM_nil] at h
    have h' : some ([] : List β) = some r := h
    simp only [Option.some.injEq] at h'
    simp [← h']
  | cons a rest ih =>
    intro r h
    rw [List.mapM_cons] at h
    cases hfa : f a with
    | none => rw [hfa] at h; simp at h
    | some b =>
      rw [hfa] at h
      cases hrest : rest.mapM f with
      | none =>
        rw [hrest] at h
        have h' : (none : Option (List β)) = some r := h
        simp at h'
      | some bs =>
        rw [hrest] at h
        have h' : some (b :: bs) = some r := h
        simp only [Option.some.injEq] at h'
        subst h'
        simp [ih hrest]

theorem mapM_some_getD {α β : Type} (f : α → Option β) (da : α) (db : β) :
    ∀ {l : List α} {r : List β}, l.mapM f = some r →
      ∀ m, m < l.length → f (l.getD m da) = some (r.getD m db) := by
  intro l
  induction l with
  | nil =>
    intro r _ m hm
    simp at hm
  | cons a rest ih =>
    intro r h m hm
    rw [List.mapM_cons] at h
    cases hfa : f a with
    | none => rw [hfa] at h; simp at h
    | some b =>
      rw [hfa] at h
      cases hrest : rest.mapM f with
      | none =>
        rw [hrest] at h
        have h' : (none : Option (List β)) = some r := h
        simp at h'
      | some bs =>
        rw [hrest] at h
        have h' : some (b :: bs) = some r := h
        simp only [Option.some.injEq] at h'
        subst h'
        cases m with
        | zero => simpa using hfa
        | succ m' =>
          have := ih hrest m' (by simpa using hm)
          simpa using this

theorem get?_eq_some_getD {α : Type} (d : α) :
    ∀ (l : List α) (m : ℕ), m < l.length → l.get? m = some (l.getD m d) := by
  intro l
  induction l with
  | nil =>
    intro m hm
    simp at hm
  | cons a rest ih =>
    intro m hm
    cases m with
    | zero => rfl
    | succ m' => simpa using ih m' (by simpa using hm)

theorem drop_cons_getD {α : Type} (d : α) :
    ∀ (l : List α) (m : ℕ) (a : α) (rest : List α), l.drop m = a :: rest →
      l.getD m d = a ∧ m < l.length ∧ l.drop (m + 1) = rest := by
  intro l
  induction l with
  | nil =>
    intro m a rest h
    simp at h
  | cons x xs ih =>
    intro m a rest h
    cases m with
    | zero =>
      simp at h
      refine ⟨h.1, by simp, by simpa using h.2⟩
    | succ m' =>
      simp only [List.drop_succ_cons] at h
      obtain ⟨h1, h2, h3⟩ := ih m' a rest h
      exact ⟨by simpa using h1, by simpa using h2, by simpa using h3⟩

theorem prefixSizes_zero (fss : List FieldSchema) : prefixSizes fss 0 = 0 := rfl

theorem prefixSizes_succ {fss : List FieldSchema} {m : ℕ} (h : m < fss.length) :
    prefixSizes fss (m + 1) =
      prefixSizes fss m + (fss.getD m FieldSchema.U8).byte_size := by
  have h' : m < (List.map FieldSchema.byte_size fss).length := by simpa using h
  unfold prefixSizes
  rw [List.map_take, List.map_take, List.sum_take_succ _ m h']
  rw [List.getD_eq_getElem?_getD, List.getElem?_eq_getElem h]
  simp

theorem ordRank_ge_two {o : Ordering} (h : 2 ≤ ordRank o) : o = Ordering.gt := by
  cases o <;> simp [ordRank] at h ⊢

theorem ordering_eq_of_ne {o : Ordering} (h1 : o ≠ Ordering.lt)
    (h2 : o ≠ Ordering.gt) : o = Ordering.eq := by
  cases o <;> simp_all

/-- One unfolding step of the per-field narrowing loop. -/
theorem findInsertPosAux_cons_eq (schema : TableSchema) (indexBytes : List ℕ)
    (K : List Value) (rowSize : ℕ) (f : String) (rest' : List String)
    (fieldPos m : ℕ) (lhs rhs : ℤ) (fsm : FieldSchema) (km : Value)
    (h1 : schema.fieldSchema? f = some fsm) (h2 : K.get? m = some km) :
    findInsertPosAux schema indexBytes K rowSize (f :: rest') fieldPos m lhs rhs =
      findInsertPosAux schema indexBytes K rowSize rest' (fieldPos + fsm.byte_size)
        (m + 1)
        (binary_narrow_to_range_exclusive lhs rhs
          (fun i => (fsm.value_from_bytes
            (indexBytes.drop (i.toNat * rowSize + fieldPos))).cmpD km)).1
        (binary_narrow_to_range_exclusive lhs rhs
          (fun i => (fsm.value_from_bytes
            (indexBytes.drop (i.toNat * rowSize + fieldPos))).cmpD km)).2 := by
  simp only [findInsertPosAux]
  rw [h1]
  have hred : ∀ (a : FieldSchema) (g : FieldSchema → Option (ℤ × ℤ)),
      (some a >>= g) = g a := fun a g => rfl
  rw [hred]
  rw [h2]
  rfl

/-- Invariant proof for the per-field narrowing of
`find_insert_pos_in_index`: processing the index fields from position `m`
onwards, an exclusive band whose outside is lexicographically separated
from the probe on the first `m` fields and whose inside agrees with the
probe on them is narrowed to a band with the same property on all fields. -/
theorem findInsertPosAux_spec (schema : TableSchema) (indexBytes : List ℕ)
    (K : List Value) (rowSize : ℕ) (ifields : List String)
    (fss : List FieldSchema)
    (hfs : ifields.mapM schema.fieldSchema? = some fss)
    (hKlen : K.length = ifields.length)
    (hKwf : ∀ v ∈ K, v.wfB = true)
    (hKcompat : ∀ m, m < ifields.length →
      compatB (fss.getD m FieldSchema.U8) (K.getD m Value.NULL) = true)
    (hbytes : ∀ b ∈ indexBytes, b < 256)
    (hsorted : ∀ i j : ℕ, i ≤ j → j < indexBytes.length / rowSize →
      lexLE ifields.length (entryKeyZ indexBytes rowSize fss i)
        (entryKeyZ indexBytes rowSize fss j)) :
    ∀ (rest : List String) (m : ℕ) (lhs rhs : ℤ),
      ifields.drop m = rest → m ≤ ifields.length →
      -1 ≤ lhs → lhs < rhs → rhs ≤ ((indexBytes.length / rowSize : ℕ) : ℤ) →
      (∀ i : ℕ, i < indexBytes.length / rowSize → (i : ℤ) ≤ lhs →
        lexLT m (entryKeyZ indexBytes rowSize fss i) (probeKeyZ fss K)) →
      (∀ i : ℕ, i < indexBytes.length / rowSize → rhs ≤ (i : ℤ) →
        lexLT m (probeKeyZ fss K) (entryKeyZ indexBytes rowSize fss i)) →
      (∀ i : ℕ, i < indexBytes.length / rowSize → lhs < (i : ℤ) → (i : ℤ) < rhs →
        lexAgree m (entryKeyZ indexBytes rowSize fss i) (probeKeyZ fss K)) →
      ∃ lr : ℤ × ℤ,
        findInsertPosAux schema indexBytes K rowSize rest (prefixSizes fss m) m
          lhs rhs = some lr ∧
        -1 ≤ lr.1 ∧ lr.1 < lr.2 ∧ lr.2 ≤ ((indexBytes.length / rowSize : ℕ) : ℤ) ∧
        (∀ i : ℕ, i < indexBytes.length / rowSize → (i : ℤ) ≤ lr.1 →
          lexLT ifields.length (entryKeyZ indexBytes rowSize fss i)
            (probeKeyZ fss K)) ∧
        (∀ i : ℕ, i < indexBytes.length / rowSize → lr.2 ≤ (i : ℤ) →
          lexLT ifields.length (probeKeyZ fss K)
            (entryKeyZ indexBytes rowSize fss i)) ∧
        (∀ i : ℕ, i < indexBytes.length / rowSize → lr.1 < (i : ℤ) →
          (i : ℤ) < lr.2 →
          lexAgree ifields.length (entryKeyZ indexBytes rowSize fss i)
            (probeKeyZ fss K)) := by
  intro rest
  induction rest with
  | nil =>
    intro m lhs rhs hdrop hm hb1 hb2 hb3 hlow hhigh hband
    have hmn : m = ifields.length := by
      have := congrArg List.length hdrop
      simp at this
      omega
    subst hmn
    exact ⟨(lhs, rhs), rfl, hb1, hb2, hb3, hlow, hhigh, hband⟩
  | cons f rest' ih =>
    intro m lhs rhs hdrop hm hb1 hb2 hb3 hlow hhigh hband
    obtain ⟨hgetf, hmlt, hdrop'⟩ := drop_cons_getD "" ifields m f rest' hdrop
    have hfsslen : fss.length = ifields.length := mapM_some_length _ hfs
    have hfsm : schema.fieldSchema? f = some (fss.getD m FieldSchema.U8) := by
      have hh := mapM_some_getD schema.fieldSchema? "" FieldSchema.U8 hfs m hmlt
      rw [hgetf] at hh
      exact hh
    have hKm : K.get? m = some (K.getD m Value.NULL) :=
      get?_eq_some_getD _ K m (by omega)
    have hKmem : K.getD m Value.NULL ∈ K := List.get?_mem hKm
    -- the comparator probed at field m
    have predEq : ∀ i : ℤ,
        ((fss.getD m FieldSchema.U8).value_from_bytes
          (indexBytes.drop (i.toNat * rowSize + prefixSizes fss m))).cmpD
            (K.getD m Value.NULL) =
        cmpInt (entryKeyZ indexBytes rowSize fss i.toNat m) (probeKeyZ fss K m) := by
      intro i
      exact cmpD_embed (fss.getD m FieldSchema.U8) _ _
        (value_from_bytes_compatB _ _)
        (value_from_bytes_wfB _ _
          (fun b hb => hbytes b (List.mem_of_mem_drop hb)))
        (hKcompat m hmlt) (hKwf _ hKmem)
    have mono : ∀ x y : ℤ, lhs < x → x ≤ y → y < rhs →
        ordRank ((fun i : ℤ =>
          ((fss.getD m FieldSchema.U8).value_from_bytes
            (indexBytes.drop (i.toNat * rowSize + prefixSizes fss m))).cmpD
              (K.getD m Value.NULL)) x) ≤
        ordRank ((fun i : ℤ =>
          ((fss.getD m FieldSchema.U8).value_from_bytes
            (indexBytes.drop (i.toNat * rowSize + prefixSizes fss m))).cmpD
              (K.getD m Value.NULL)) y) := by
      intro x y hx hxy hy
      simp only [predEq]
      apply cmpInt_rank_mono
      have hx0 : 0 ≤ x := by omega
      have hxx : (x.toNat : ℤ) = x := Int.toNat_of_nonneg hx0
      have hyy : (y.toNat : ℤ) = y := Int.toNat_of_nonneg (by omega)
      have hycount : y.toNat < indexBytes.length / rowSize := by omega
      apply lex_step hmlt
        (hsorted x.toNat y.toNat (by omega) hycount)
        (hband x.toNat (by omega) (by omega) (by omega))
        (hband y.toNat hycount (by omega) (by omega))
    obtain ⟨a1, a2, a3, a4, a5, a6, a7⟩ :=
      binary_narrow_spec lhs rhs
        (fun i : ℤ =>
          ((fss.getD m FieldSchema.U8).value_from_bytes
            (indexBytes.drop (i.toNat * rowSize + prefixSizes fss m))).cmpD
              (K.getD m Value.NULL)) hb2 mono
    -- invariants for the narrowed band, one field further
    have hlow' : ∀ i : ℕ, i < indexBytes.length / rowSize →
        (i : ℤ) ≤ (binary_narrow_to_range_exclusive lhs rhs
          (fun i : ℤ =>
            ((fss.getD m FieldSchema.U8).value_from_bytes
              (indexBytes.drop (i.toNat * rowSize + prefixSizes fss m))).cmpD
                (K.getD m Value.NULL))).1 →
        lexLT (m + 1) (entryKeyZ indexBytes rowSize fss i) (probeKeyZ fss K) := by
      intro i hi hile
      by_cases hcase : (i : ℤ) ≤ lhs
      · exact lexLT_mono (by omega) (hlow i hi hcase)
      · have hband_i := hband i hi (by omega) (by omega)
        have hpredL : ((fss.getD m FieldSchema.U8).value_from_bytes
            (indexBytes.drop ((binary_narrow_to_range_exclusive lhs rhs
              (fun i : ℤ =>
                ((fss.getD m FieldSchema.U8).value_from_bytes
                  (indexBytes.drop (i.toNat * rowSize + prefixSizes fss m))).cmpD
                    (K.getD m Value.NULL))).1.toNat * rowSize +
              prefixSizes fss m))).cmpD (K.getD m Value.NULL) = Ordering.lt := by
          rcases a4 with hc | hc
          · omega
          · exact hc
        have hmono_i := mono (i : ℤ) _ (by omega) hile (by omega)
        simp only [] at hmono_i
        rw [hpredL] at hmono_i
        have hrank : ordRank (((fss.getD m FieldSchema.U8).value_from_bytes
            (indexBytes.drop ((i : ℤ).toNat * rowSize + prefixSizes fss m))).cmpD
              (K.getD m Value.NULL)) ≤ 0 := by
          simpa [ordRank] using hmono_i
        have hlt := ordRank_le_zero hrank
        rw [predEq] at hlt
        have hx : ((i : ℤ)).toNat = i := by omega
        rw [hx] at hlt
        exact ⟨m, by omega, fun g hg => hband_i g hg, cmpInt_eq_lt.mp hlt⟩
    have hhigh' : ∀ i : ℕ, i < indexBytes.length / rowSize →
        (binary_narrow_to_range_exclusive lhs rhs
          (fun i : ℤ =>
            ((fss.getD m FieldSchema.U8).value_from_bytes
              (indexBytes.drop (i.toNat * rowSize + prefixSizes fss m))).cmpD
                (K.getD m Value.NULL))).2 ≤ (i : ℤ) →
        lexLT (m + 1) (probeKeyZ fss K) (entryKeyZ indexBytes rowSize fss i) := by
      intro i hi hige
      by_cases hcase : rhs ≤ (i : ℤ)
      · exact lexLT_mono (by omega) (hhigh i hi hcase)
      · have hband_i := hband i hi (by omega) (by omega)
        have hpredR : ((fss.getD m FieldSchema.U8).value_from_bytes
            (indexBytes.drop ((binary_narrow_to_range_exclusive lhs rhs
              (fun i : ℤ =>
                ((fss.getD m FieldSchema.U8).value_from_bytes
                  (indexBytes.drop (i.toNat * rowSize + prefixSizes fss m))).cmpD
                    (K.getD m Value.NULL))).2.toNat * rowSize +
              prefixSizes fss m))).cmpD (K.getD m Value.NULL) = Ordering.gt := by
          rcases a6 with hc | hc
          · omega
          · exact hc
        have hmono_i := mono _ (i : ℤ) (by omega) hige (by omega)
        simp only [] at hmono_i
        rw [hpredR] at hmono_i
        have hrank : 2 ≤ ordRank (((fss.getD m FieldSchema.U8).value_from_bytes
            (indexBytes.drop ((i : ℤ).toNat * rowSize + prefixSizes fss m))).cmpD
              (K.getD m Value.NULL)) := by
          simpa [ordRank] using hmono_i
        have hgt := ordRank_ge_two hrank
        rw [predEq] at hgt
        have hx : ((i : ℤ)).toNat = i := by omega
        rw [hx] at hgt
        exact ⟨m, by omega, fun g hg => (hband_i g hg).symm,
          cmpInt_eq_gt.mp hgt⟩
    have hband' : ∀ i : ℕ, i < indexBytes.length / rowSize →
        (binary_narrow_to_range_exclusive lhs rhs
          (fun i : ℤ =>
            ((fss.getD m FieldSchema.U8).value_from_bytes
              (indexBytes.drop (i.toNat * rowSize + prefixSizes fss m))).cmpD
                (K.getD m Value.NULL))).1 < (i : ℤ) →
        (i : ℤ) < (binary_narrow_to_range_exclusive lhs rhs
          (fun i : ℤ =>
            ((fss.getD m FieldSchema.U8).value_from_bytes
              (indexBytes.drop (i.toNat * rowSize + prefixSizes fss m))).cmpD
                (K.getD m Value.NULL))).2 →
        lexAgree (m + 1) (entryKeyZ indexBytes rowSize fss i) (probeKeyZ fss K) := by
      intro i hi higt hilt
      have hband_i := hband i hi (by omega) (by omega)
      have hne_lt := a5 (i : ℤ) higt (by omega)
      have hne_gt := a7 (i : ℤ) (by omega) hilt
      have heqo := ordering_eq_of_ne hne_lt hne_gt
      rw [predEq] at heqo
      have hx : ((i : ℤ)).toNat = i := by omega
      rw [hx] at heqo
      have heqv := cmpInt_eq_eq.mp heqo
      intro g hg
      by_cases hgm : g < m
      · exact hband_i g hgm
      · have : g = m := by omega
        rw [this]
        exact heqv
    obtain ⟨lr, heq, c1, c2, c3, c4, c5, c6⟩ :=
      ih (m + 1)
        (binary_narrow_to_range_exclusive lhs rhs
          (fun i : ℤ =>
            ((fss.getD m FieldSchema.U8).value_from_bytes
              (indexBytes.drop (i.toNat * rowSize + prefixSizes fss m))).cmpD
                (K.getD m Value.NULL))).1
        (binary_narrow_to_range_exclusive lhs rhs
          (fun i : ℤ =>
            ((fss.getD m FieldSchema.U8).value_from_bytes
              (indexBytes.drop (i.toNat * rowSize + prefixSizes fss m))).cmpD
                (K.getD m Value.NULL))).2
        hdrop' (by omega) (by omega) a2 (by omega) hlow' hhigh' hband'
    refine ⟨lr, ?_, c1, c2, c3, c4, c5, c6⟩
    rw [findInsertPosAux_cons_eq schema indexBytes K rowSize f rest'
      (prefixSizes fss m) m lhs rhs (fss.getD m FieldSchema.U8)
      (K.getD m Value.NULL) hfsm hKm]
    rw [← prefixSizes_succ (by omega)]
    exact heq

/-! ### Byte-codec and buffer-write lemmas -/

/-- Byte offset of the first `k` fields of a field list (the offset at
which the `k`-th field is stored). -/
def sizePrefix (fl : List (String × FieldSchema)) (k : ℕ) : ℕ :=
  ((fl.take k).map (fun p => p.2.byte_size)).sum

theorem sizePrefix_zero (fl : List (String × FieldSchema)) :
    sizePrefix fl 0 = 0 := rfl

theorem sizePrefix_cons (p : String × FieldSchema)
    (fl : List (String × FieldSchema)) (k : ℕ) :
    sizePrefix (p :: fl) (k + 1) = p.2.byte_size + sizePrefix fl k := by
  simp [sizePrefix]

theorem sizePrefix_le_row (fl : List (String × FieldSchema)) (k : ℕ) :
    sizePrefix fl k ≤ (fl.map (fun p => p.2.byte_size)).sum := by
  induction fl generalizing k with
  | nil => simp [sizePrefix]
  | cons p fl ih =>
    cases k with
    | zero => simp [sizePrefix]
    | succ k =>
      rw [sizePrefix_cons]
      simp only [List.map_cons, List.sum_cons]
      exact Nat.add_le_add_left (ih k) _

theorem sizePrefix_mono (fl : List (String × FieldSchema)) {k1 k2 : ℕ}
    (h : k1 ≤ k2) : sizePrefix fl k1 ≤ sizePrefix fl k2 := by
  induction fl generalizing k1 k2 with
  | nil => simp [sizePrefix]
  | cons p fl ih =>
    cases k1 with
    | zero => simp [sizePrefix]
    | succ k1 =>
      cases k2 with
      | zero => omega
      | succ k2 =>
        rw [sizePrefix_cons, sizePrefix_cons]
        exact Nat.add_le_add_left (ih (by omega)) _

theorem fieldBytePosAux_shift (fl : List (String × FieldSchema))
    (field : String) :
    ∀ pos : ℕ, fieldBytePosAux fl field pos =
      (fieldBytePosAux fl field 0).map (fun x => x + pos) := by
  induction fl with
  | nil =>
    intro pos
    rfl
  | cons p fl ih =>
    intro pos
    by_cases h : p.1 = field
    · simp [fieldBytePosAux, h]
    · simp only [fieldBytePosAux, if_neg h]
      rw [ih (pos + p.2.byte_size), ih (0 + p.2.byte_size)]
      cases fieldBytePosAux fl field 0 <;> simp <;> omega

/-- `field_byte_pos` of the `k`-th declared field is the sum of the byte
sizes of the preceding fields, provided field names are unique. -/
theorem fieldBytePosAux_drop (fl : List (String × FieldSchema)) :
    ∀ (k : ℕ) (name : String) (fs : FieldSchema)
      (rest : List (String × FieldSchema)),
      fl.drop k = (name, fs) :: rest → (fl.map Prod.fst).Nodup →
      fieldBytePosAux fl name 0 = some (sizePrefix fl k) := by
  induction fl with
  | nil =>
    intro k name fs rest h _
    simp at h
  | cons p fl ih =>
    intro k name fs rest h hnodup
    have hnd1 : p.1 ∉ fl.map Prod.fst := by
      simp only [List.map_cons, List.nodup_cons] at hnodup
      exact hnodup.1
    have hnd2 : (fl.map Prod.fst).Nodup := by
      simp only [List.map_cons, List.nodup_cons] at hnodup
      exact hnodup.2
    cases k with
    | zero =>
      simp only [List.drop_zero] at h
      rw [h]
      simp [fieldBytePosAux, sizePrefix]
    | succ k =>
      simp only [List.drop_succ_cons] at h
      have hmem : name ∈ fl.map Prod.fst := by
        have : (name, fs) ∈ fl := by
          have h1 := List.mem_of_mem_drop (l := fl) (n := k)
            (by rw [h]; exact List.mem_cons_self _ _)
          exact h1
        exact List.mem_map_of_mem Prod.fst this
      have hne : p.1 ≠ name := fun hc => hnd1 (hc ▸ hmem)
      simp only [fieldBytePosAux, if_neg hne]
      rw [fieldBytePosAux_shift, ih k name fs rest h hnd2]
      simp [sizePrefix_cons]
      omega

/-- Length of the buffer write. -/
theorem writeBytesAt_length (buf : List ℕ) (pos : ℕ) (bs : List ℕ)
    (h : pos + bs.length ≤ buf.length) :
    (writeBytesAt buf pos bs).length = buf.length := by
  unfold writeBytesAt
  simp
  omega

theorem writeBytesAt_nil (buf : List ℕ) (pos : ℕ) :
    writeBytesAt buf pos [] = buf := by
  unfold writeBytesAt
  simp

/-- The decoded value of a field always re-encodes to the exact bytes it
was decoded from. -/
theorem bytes_value_from_bytes (fs : FieldSchema) (bs : List ℕ)
    (hlen : fs.byte_size ≤ bs.length)
    (hlt : ∀ x ∈ bs.take fs.byte_size, x < 256) :
    (fs.value_from_bytes bs).bytes = bs.take fs.byte_size := by
  cases fs with
  | U8 =>
    match bs, hlen with
    | b0 :: rest, _ =>
      simp [FieldSchema.value_from_bytes, Value.bytes, leVal,
        FieldSchema.byte_size]
  | I32 =>
    match bs, hlen with
    | b0 :: b1 :: b2 :: b3 :: rest, _ =>
      have hb0 : b0 < 256 := by
        apply hlt
        simp [FieldSchema.byte_size]
      have hb1 : b1 < 256 := by
        apply hlt
        simp [FieldSchema.byte_size]
      have hb2 : b2 < 256 := by
        apply hlt
        simp [FieldSchema.byte_size]
      have hb3 : b3 < 256 := by
        apply hlt
        simp [FieldSchema.byte_size]
      simp only [FieldSchema.value_from_bytes, Value.bytes,
        FieldSchema.byte_size, List.take_succ_cons, List.take_zero, leVal,
        toSigned32, le4]
      have hn : b0 + 256 * (b1 + 256 * (b2 + 256 * (b3 + 256 * 0))) <
          4294967296 := by omega
      split_ifs with hc
      · have h1 : ((b0 + 256 * (b1 + 256 * (b2 + 256 * (b3 + 256 * 0))) : ℕ) :
            ℤ) % 4294967296 =
            ((b0 + 256 * (b1 + 256 * (b2 + 256 * (b3 + 256 * 0))) : ℕ) : ℤ) := by
          omega
        simp only [h1]
        simp only [List.cons.injEq]
        refine ⟨by omega, by omega, by omega, by omega, trivial⟩
      · have h1 : (((b0 + 256 * (b1 + 256 * (b2 + 256 * (b3 + 256 * 0))) :
            ℕ) : ℤ) - 4294967296) % 4294967296 =
            ((b0 + 256 * (b1 + 256 * (b2 + 256 * (b3 + 256 * 0))) : ℕ) : ℤ) -
              4294967296 + 4294967296 := by
          omega
        simp only [h1]
        simp only [List.cons.injEq]
        refine ⟨by omega, by omega, by omega, by omega, trivial⟩

/-- Length of the bytes written for a decoded (never `NULL`) value. -/
theorem bytes_length_value_from_bytes (fs : FieldSchema) (bs : List ℕ) :
    (fs.value_from_bytes bs).bytes.length = fs.byte_size := by
  cases fs <;> simp [FieldSchema.value_from_bytes, Value.bytes, le4,
    FieldSchema.byte_size]

theorem sizePrefix_succ_getD {fl : List (String × FieldSchema)} {k : ℕ}
    (h : k < fl.length) :
    sizePrefix fl (k + 1) =
      sizePrefix fl k + (fl.getD k ("", FieldSchema.U8)).2.byte_size := by
  have h' : k < (fl.map (fun p => p.2.byte_size)).length := by simpa using h
  unfold sizePrefix
  rw [List.map_take, List.map_take, List.sum_take_succ _ k h']
  rw [List.getD_eq_getElem?_getD, List.getElem?_eq_getElem h]
  simp

/-- Folding the writes of the parsed fields of `b` (from field `k`
onwards) over a row-sized buffer rebuilds `b` from the `k`-th field's
offset on. -/
theorem data_row_fold_rebuild (schema : TableSchema) (b : List ℕ)
    (hnodup : (schema.fields.map Prod.fst).Nodup)
    (hblen : b.length = schema.row_byte_size)
    (hblt : ∀ x ∈ b, x < 256) :
    ∀ (suffix : List (String × FieldSchema)) (k : ℕ) (buf : List ℕ),
      schema.fields.drop k = suffix →
      buf.length = schema.row_byte_size →
      (parseRowAux b suffix (sizePrefix schema.fields k)).foldlM
        (fun buf nv => do
          let pos ← schema.field_byte_pos? nv.1
          pure (writeBytesAt buf pos nv.2.bytes))
        buf =
      some (buf.take (sizePrefix schema.fields k) ++
        b.drop (sizePrefix schema.fields k)) := by
  intro suffix
  induction suffix with
  | nil =>
    intro k buf hdrop hbuflen
    have hk : schema.fields.length ≤ k := by
      have := congrArg List.length hdrop
      simp at this
      omega
    have hpk : sizePrefix schema.fields k = schema.row_byte_size := by
      unfold sizePrefix TableSchema.row_byte_size
      rw [List.take_of_length_le hk]
    rw [hpk]
    rw [List.take_of_length_le (by omega)]
    rw [List.drop_of_length_le (by omega)]
    simp [parseRowAux]
  | cons p rest ih =>
    intro k buf hdrop hbuflen
    obtain ⟨n, fs⟩ := p
    obtain ⟨hget, hklt, hdrop'⟩ :=
      drop_cons_getD ("", FieldSchema.U8) schema.fields k (n, fs) rest hdrop
    have hpos : schema.field_byte_pos? n = some (sizePrefix schema.fields k) :=
      fieldBytePosAux_drop schema.fields k n fs rest hdrop hnodup
    have hnext : sizePrefix schema.fields (k + 1) =
        sizePrefix schema.fields k + fs.byte_size := by
      rw [sizePrefix_succ_getD hklt, hget]
    have hbound : sizePrefix schema.fields k + fs.byte_size ≤
        schema.row_byte_size := by
      rw [← hnext]
      exact sizePrefix_le_row schema.fields (k + 1)
    have hdlen : fs.byte_size ≤ (b.drop (sizePrefix schema.fields k)).length := by
      simp
      omega
    have hvb : (fs.value_from_bytes (b.drop (sizePrefix schema.fields k))).bytes =
        (b.drop (sizePrefix schema.fields k)).take fs.byte_size :=
      bytes_value_from_bytes fs _ hdlen
        (fun x hx => hblt x (List.mem_of_mem_drop (List.mem_of_mem_take hx)))
    have hvlen : ((b.drop (sizePrefix schema.fields k)).take fs.byte_size).length =
        fs.byte_size := by
      simp
      omega
    have hparse : parseRowAux b ((n, fs) :: rest) (sizePrefix schema.fields k) =
        (n, fs.value_from_bytes (b.drop (sizePrefix schema.fields k))) ::
        parseRowAux b rest (sizePrefix schema.fields k + fs.byte_size) := rfl
    rw [hparse, List.foldlM_cons]
    simp only []
    rw [hpos]
    have hredN2 : ∀ (a : ℕ) (g : ℕ → Option (List ℕ)), (some a >>= g) = g a :=
      fun _ _ => rfl
    rw [hredN2]
    have hredP : ∀ (a : List ℕ) (g : List ℕ → Option (List ℕ)),
        ((pure a : Option (List ℕ)) >>= g) = g a := fun _ _ => rfl
    rw [hredP]
    rw [hvb]
    have hbuflen2 : (writeBytesAt buf (sizePrefix schema.fields k)
        ((b.drop (sizePrefix schema.fields k)).take fs.byte_size)).length =
        schema.row_byte_size := by
      rw [writeBytesAt_length]
      · exact hbuflen
      · rw [hvlen]
        omega
    rw [show sizePrefix schema.fields k + fs.byte_size =
      sizePrefix schema.fields (k + 1) from hnext.symm]
    rw [ih (k + 1) _ hdrop' hbuflen2]
    have htake : (writeBytesAt buf (sizePrefix schema.fields k)
        ((b.drop (sizePrefix schema.fields k)).take fs.byte_size)).take
          (sizePrefix schema.fields (k + 1)) =
        buf.take (sizePrefix schema.fields k) ++
          (b.drop (sizePrefix schema.fields k)).take fs.byte_size := by
      unfold writeBytesAt
      apply List.take_left'
      rw [List.length_append, hvlen, List.length_take]
      omega
    rw [htake]
    rw [List.append_assoc]
    have hjoin : (b.drop (sizePrefix schema.fields k)).take fs.byte_size ++
        b.drop (sizePrefix schema.fields (k + 1)) =
        b.drop (sizePrefix schema.fields k) := by
      have hdd : b.drop (sizePrefix schema.fields (k + 1)) =
          (b.drop (sizePrefix schema.fields k)).drop fs.byte_size := by
        rw [List.drop_drop]
        congr 1
      rw [hdd]
      exact List.take_append_drop _ _
    rw [hjoin]

/-! ### Index-row codec machinery (`TableSchema::index_row_to_bytes`,
schema.rs lines 90-112) -/

theorem le4_length (m : ℕ) : (le4 m).length = 4 := rfl

theorem le8_length (m : ℕ) : (le8 m).length = 8 := rfl

/-- `leVal` inverts `le4` on 32-bit patterns. -/
theorem leVal_le4 (m : ℕ) (h : m < 4294967296) : leVal (le4 m) = m := by
  simp [le4, leVal]
  omega

/-- `leVal` inverts `le8` on 64-bit patterns. -/
theorem leVal_le8 (m : ℕ) (h : m < 18446744073709551616) : leVal (le8 m) = m := by
  simp [le8, leVal]
  omega

/-- The unsigned 32-bit reinterpretation of an in-range signed value
round-trips. -/
theorem toSigned32_mod (z : ℤ) (h1 : -2147483648 ≤ z) (h2 : z < 2147483648) :
    toSigned32 ((z % 4294967296).toNat) = z := by
  unfold toSigned32
  split_ifs with h <;> omega

/-- A value compatible with a field schema writes at most the field's
byte size. -/
theorem bytes_length_le_of_compat (fs : FieldSchema) (v : Value)
    (h : compatB fs v = true) : v.bytes.length ≤ fs.byte_size := by
  cases fs <;> cases v <;>
    simp_all [compatB, Value.bytes, FieldSchema.byte_size, le4]

/-- A non-`NULL` compatible value writes exactly the field's byte size. -/
theorem bytes_length_of_compat (fs : FieldSchema) (v : Value)
    (h : compatB fs v = true) (hnn : v ≠ Value.NULL) :
    v.bytes.length = fs.byte_size := by
  cases fs <;> cases v <;>
    simp_all [compatB, Value.bytes, FieldSchema.byte_size, le4]

/-- `value_from_bytes` reads only the first `byte_size` bytes of its
slice. -/
theorem value_from_bytes_eq_of_take (fs : FieldSchema) (bs cs : List ℕ)
    (h : bs.take fs.byte_size = cs.take fs.byte_size) :
    fs.value_from_bytes bs = fs.value_from_bytes cs := by
  cases fs <;>
    simp only [FieldSchema.value_from_bytes, FieldSchema.byte_size] at h ⊢ <;>
    rw [h]

/-- Decoding inverts encoding on non-`NULL`, compatible, well-formed
values. -/
theorem value_from_bytes_bytes (fs : FieldSchema) (v : Value) (tail : List ℕ)
    (hc : compatB fs v = true) (hw : v.wfB = true) (hnn : v ≠ Value.NULL) :
    fs.value_from_bytes (v.bytes ++ tail) = v := by
  cases fs with
  | U8 =>
    cases v with
    | NULL => exact absurd rfl hnn
    | I32 z => simp [compatB] at hc
    | U8 n => simp [FieldSchema.value_from_bytes, Value.bytes, leVal]
  | I32 =>
    cases v with
    | NULL => exact absurd rfl hnn
    | U8 n => simp [compatB] at hc
    | I32 z =>
      simp only [Value.wfB, decide_eq_true_eq] at hw
      have hl4 : (le4 ((z % 4294967296).toNat)).length = 4 := rfl
      simp only [FieldSchema.value_from_bytes, Value.bytes]
      rw [List.take_append_of_le_length (by simp [hl4])]
      rw [List.take_of_length_le (by simp [hl4])]
      rw [leVal_le4 _ (by omega)]
      rw [toSigned32_mod z hw.1 hw.2]

/-- Bytes strictly below the write position are untouched. -/
theorem writeBytesAt_take_le (buf : List ℕ) (pos : ℕ) (bs : List ℕ) (n : ℕ)
    (h1 : pos ≤ buf.length) (h2 : n ≤ pos) :
    (writeBytesAt buf pos bs).take n = buf.take n := by
  unfold writeBytesAt
  rw [List.append_assoc]
  rw [List.take_append_of_le_length (by simp; omega)]
  rw [List.take_take]
  congr 1
  omega

/-- Bytes at or above the end of the written region are untouched. -/
theorem writeBytesAt_drop_ge (buf : List ℕ) (pos : ℕ) (bs : List ℕ) (n : ℕ)
    (h1 : pos + bs.length ≤ buf.length) (h2 : pos + bs.length ≤ n) :
    (writeBytesAt buf pos bs).drop n = buf.drop n := by
  unfold writeBytesAt
  have hA : (buf.take pos ++ bs).length = pos + bs.length := by
    simp
    omega
  obtain ⟨i, rfl⟩ : ∃ i, n = (buf.take pos ++ bs).length + i :=
    ⟨n - (pos + bs.length), by rw [hA]; omega⟩
  rw [List.drop_append]
  rw [List.drop_drop]
  congr 1
  omega

/-- Reading back from the write position yields the written bytes first. -/
theorem writeBytesAt_drop_self (buf : List ℕ) (pos : ℕ) (bs : List ℕ)
    (h1 : pos ≤ buf.length) :
    (writeBytesAt buf pos bs).drop pos = bs ++ buf.drop (pos + bs.length) := by
  unfold writeBytesAt
  rw [List.append_assoc]
  exact List.drop_left' (by simp; omega)

/-- A write whose region is disjoint from a read region leaves the read
region unchanged. -/
theorem writeBytesAt_frame (buf : List ℕ) (pos : ℕ) (bs : List ℕ) (a m : ℕ)
    (h1 : pos + bs.length ≤ buf.length)
    (hdisj : pos + bs.length ≤ a ∨ a + m ≤ pos) :
    ((writeBytesAt buf pos bs).drop a).take m = (buf.drop a).take m := by
  rcases hdisj with h | h
  · rw [writeBytesAt_drop_ge buf pos bs a h1 h]
  · rw [List.take_drop, List.take_drop]
    rw [writeBytesAt_take_le buf pos bs (a + m) (by omega) h]

/-- A successful association-list lookup is a membership. -/
theorem lookup_mem {α β : Type} [BEq α] [LawfulBEq α] {l : List (α × β)}
    {a : α} {b : β} (h : l.lookup a = some b) : (a, b) ∈ l := by
  obtain ⟨l₁, l₂, rfl, -⟩ := List.lookup_eq_some_iff.mp h
  exact List.mem_append.mpr (Or.inr (List.mem_cons_self _ _))

/-- Under unique keys, the entry found by position is the one `lookup`
returns. -/
theorem lookup_eq_of_drop_cons {β : Type} :
    ∀ (fl : List (String × β)) (j : ℕ) (n : String) (fs : β)
      (rest : List (String × β)),
      fl.drop j = (n, fs) :: rest → (fl.map Prod.fst).Nodup →
      fl.lookup n = some fs := by
  intro fl
  induction fl with
  | nil =>
    intro j n fs rest h _
    rw [List.drop_nil] at h
    cases h
  | cons p fl ih =>
    intro j n fs rest h hnodup
    obtain ⟨m, fsm⟩ := p
    simp only [List.map_cons, List.nodup_cons] at hnodup
    cases j with
    | zero =>
      simp only [List.drop_zero] at h
      cases h
      simp
    | succ j =>
      simp only [List.drop_succ_cons] at h
      have hmem : n ∈ fl.map Prod.fst :=
        List.mem_map_of_mem Prod.fst
          (List.mem_of_mem_drop (h ▸ List.mem_cons_self _ _))
      have hne : m ≠ n := fun hc => hnodup.1 (hc ▸ hmem)
      have hbeq : (n == m) = false := by
        rw [beq_eq_false_iff_ne]
        exact Ne.symm hne
      simp only [List.lookup, hbeq]
      exact ih j n fs rest h hnodup.2

/-- Decomposition of a successful `mapM` over a cons. -/
theorem mapM_cons_some {α β : Type} (g : α → Option β) (a : α) (l : List α)
    (r : List β) (h : (a :: l).mapM g = some r) :
    ∃ b r', g a = some b ∧ l.mapM g = some r' ∧ r = b :: r' := by
  rw [List.mapM_cons] at h
  cases hga : g a with
  | none => rw [hga] at h; simp at h
  | some b =>
    rw [hga] at h
    cases hl : l.mapM g with
    | none =>
      rw [hl] at h
      have h' : (none : Option (List β)) = some r := h
      simp at h'
    | some r' =>
      rw [hl] at h
      have h' : some (b :: r') = some r := h
      simp only [Option.some.injEq] at h'
      exact ⟨b, r', rfl, rfl, h'.symm⟩

/-- `mapM` succeeds when every element maps to `some`. -/
theorem mapM_some_of_forall {α β : Type} (g : α → Option β) :
    ∀ l : List α, (∀ a ∈ l, (g a).isSome = true) →
      ∃ r, l.mapM g = some r := by
  intro l
  induction l with
  | nil =>
    intro _
    exact ⟨[], rfl⟩
  | cons a l ih =>
    intro h
    obtain ⟨b, hb⟩ :=
      Option.isSome_iff_exists.mp (h a (List.mem_cons_self a l))
    obtain ⟨r, hr⟩ := ih (fun x hx => h x (List.mem_cons_of_mem a hx))
    refine ⟨b :: r, ?_⟩
    rw [List.mapM_cons, hb, hr]
    rfl

/-- A successful `field_byte_pos` walk identifies the field's position in
the declaration list and its offset as the preceding fields' summed
sizes. -/
theorem fieldBytePosAux_some_inv :
    ∀ (fl : List (String × FieldSchema)) (n : String) (p : ℕ),
      fieldBytePosAux fl n 0 = some p →
      ∃ j fsn rest, fl.drop j = (n, fsn) :: rest ∧ p = sizePrefix fl j := by
  intro fl
  induction fl with
  | nil =>
    intro n p h
    cases h
  | cons q fl ih =>
    intro n p h
    obtain ⟨m, fsm⟩ := q
    by_cases hq : m = n
    · subst hq
      simp only [fieldBytePosAux, if_pos rfl] at h
      cases h
      exact ⟨0, fsm, fl, rfl, rfl⟩
    · simp only [fieldBytePosAux, if_neg hq] at h
      rw [fieldBytePosAux_shift] at h
      cases hfz : fieldBytePosAux fl n 0 with
      | none =>
        rw [hfz] at h
        cases h
      | some p0 =>
        rw [hfz] at h
        simp only [Option.map_some', Option.some.injEq] at h
        obtain ⟨j, fsn, rest, hdrop, hpz⟩ := ih n p0 hfz
        refine ⟨j + 1, fsn, rest, by simpa using hdrop, ?_⟩
        rw [sizePrefix_cons]
        show p = fsm.byte_size + sizePrefix fl j
        omega

/-- `index_field_byte_pos` succeeds for every index field when all index
fields are declared. -/
theorem indexFieldBytePosAux_isSome (s : TableSchema) :
    ∀ (flds : List String) (f : String) (pos : ℕ),
      f ∈ flds → (∀ g ∈ flds, (s.fieldSchema? g).isSome = true) →
      (indexFieldBytePosAux s flds f pos).isSome = true := by
  intro flds
  induction flds with
  | nil =>
    intro f pos h _
    cases h
  | cons g flds ih =>
    intro f pos hmem hdecl
    by_cases hg : g = f
    · simp [indexFieldBytePosAux, hg]
    · simp only [indexFieldBytePosAux, if_neg hg]
      obtain ⟨fs, hfs⟩ :=
        Option.isSome_iff_exists.mp (hdecl g (List.mem_cons_self _ _))
      rw [hfs]
      exact ih f (pos + fs.byte_size)
        ((List.mem_cons.mp hmem).resolve_left (fun hc => hg hc.symm))
        (fun x hx => hdecl x (List.mem_cons_of_mem _ hx))

/-- The offset returned by the index-field walk lies inside the fields
band, with the whole field before the row-pointer suffix. -/
theorem indexFieldBytePosAux_bound (s : TableSchema) :
    ∀ (flds : List String) (f : String) (pos off : ℕ) (sizes : List ℕ),
      indexFieldBytePosAux s flds f pos = some off →
      flds.mapM (fun g => (s.fieldSchema? g).map FieldSchema.byte_size) =
        some sizes →
      pos ≤ off ∧
        off + ((s.fieldSchema? f).getD FieldSchema.U8).byte_size ≤
          pos + sizes.sum := by
  intro flds
  induction flds with
  | nil =>
    intro f pos off sizes h _
    cases h
  | cons g flds ih =>
    intro f pos off sizes h hsz
    obtain ⟨b, sizes', hgb, hsz', rfl⟩ :=
      mapM_cons_some _ g flds sizes hsz
    obtain ⟨fs, hfs, rfl⟩ :
        ∃ fs, s.fieldSchema? g = some fs ∧ b = fs.byte_size := by
      cases hq : s.fieldSchema? g with
      | none => rw [hq] at hgb; cases hgb
      | some fs =>
        rw [hq] at hgb
        simp only [Option.map_some', Option.some.injEq] at hgb
        exact ⟨fs, rfl, hgb.symm⟩
    by_cases hg : g = f
    · simp only [indexFieldBytePosAux, if_pos hg, Option.some.injEq] at h
      subst h
      rw [← hg, hfs]
      simp only [Option.getD_some, List.sum_cons]
      omega
    · simp only [indexFieldBytePosAux, if_neg hg, hfs] at h
      have := ih f (pos + fs.byte_size) off sizes' h hsz'
      simp only [List.sum_cons]
      omega

/-- Every decoded field value is a concrete `I32` or `U8`, never `NULL`. -/
theorem parseRowAux_snd (bytes : List ℕ) :
    ∀ (fl : List (String × FieldSchema)) (pos : ℕ) (p : String × Value),
      p ∈ parseRowAux bytes fl pos →
      (∃ z, p.2 = Value.I32 z) ∨ (∃ n, p.2 = Value.U8 n) := by
  intro fl
  induction fl with
  | nil =>
    intro pos p h
    cases h
  | cons q fl ih =>
    intro pos p h
    obtain ⟨n, fs⟩ := q
    rcases List.mem_cons.mp h with h | h
    · subst h
      cases fs
      · exact Or.inr ⟨_, rfl⟩
      · exact Or.inl ⟨_, rfl⟩
    · exact ih _ p h

/-- Full characterisation of the index-field write loop (schema.rs lines
99-107): it ends at the summed field sizes, leaves the buffer outside the
written band unchanged, and stores each supplied value's bytes at that
field's offset. -/
theorem indexRowWriteAux_spec (s : TableSchema)
    (values : List (String × Value)) :
    ∀ (flds : List String) (pos : ℕ) (buf : List ℕ) (sizes : List ℕ),
      flds.mapM (fun g => (s.fieldSchema? g).map FieldSchema.byte_size) =
        some sizes →
      (∀ f ∈ flds, ∀ v, values.lookup f = some v →
        compatB ((s.fieldSchema? f).getD FieldSchema.U8) v = true) →
      pos + sizes.sum ≤ buf.length →
      ∃ buf',
        indexRowWriteAux s values flds pos buf =
          some (pos + sizes.sum, buf') ∧
        buf'.length = buf.length ∧
        (∀ n, n ≤ pos → buf'.take n = buf.take n) ∧
        (∀ n, pos + sizes.sum ≤ n → buf'.drop n = buf.drop n) ∧
        (∀ f off v, indexFieldBytePosAux s flds f pos = some off →
          values.lookup f = some v → v ≠ Value.NULL →
          (buf'.drop off).take v.bytes.length = v.bytes) := by
  intro flds
  induction flds with
  | nil =>
    intro pos buf sizes hsz hcompat hfit
    have hsz0 : sizes = [] := by
      have h' : some ([] : List ℕ) = some sizes := hsz
      simp only [Option.some.injEq] at h'
      exact h'.symm
    subst hsz0
    refine ⟨buf, ?_, rfl, fun n _ => rfl, fun n _ => rfl, ?_⟩
    · simp [indexRowWriteAux]
    · intro f off v hoff _ _
      cases hoff
  | cons g flds ih =>
    intro pos buf sizes hsz hcompat hfit
    obtain ⟨b, sizes', hgb, hsz', rfl⟩ := mapM_cons_some _ g flds sizes hsz
    obtain ⟨fs, hfs, rfl⟩ :
        ∃ fs, s.fieldSchema? g = some fs ∧ b = fs.byte_size := by
      cases hq : s.fieldSchema? g with
      | none => rw [hq] at hgb; cases hgb
      | some fs =>
        rw [hq] at hgb
        simp only [Option.map_some', Option.some.injEq] at hgb
        exact ⟨fs, rfl, hgb.symm⟩
    simp only [List.sum_cons] at hfit
    have hps : pos + (fs.byte_size :: sizes').sum =
        pos + fs.byte_size + sizes'.sum := by
      simp only [List.sum_cons]
      omega
    have hredF : ∀ (a : FieldSchema)
        (k : FieldSchema → Option (ℕ × List ℕ)),
        (some a >>= k) = k a := fun _ _ => rfl
    cases hlv : values.lookup g with
    | none =>
      obtain ⟨buf'', heq, hlen, htake, hdrop, hrec⟩ :=
        ih (pos + fs.byte_size) buf sizes' hsz'
          (fun f hf v hv => hcompat f (List.mem_cons_of_mem _ hf) v hv)
          (by omega)
      refine ⟨buf'', ?_, hlen, ?_, ?_, ?_⟩
      · simp only [indexRowWriteAux]
        rw [hfs]
        rw [hredF]
        rw [hlv]
        rw [hps]
        exact heq
      · intro n hn
        exact htake n (by omega)
      · intro n hn
        simp only [List.sum_cons] at hn
        exact hdrop n (by omega)
      · intro f off v hoff hv hnn
        by_cases hgf : g = f
        · rw [hgf] at hlv
          rw [hlv] at hv
          cases hv
        · simp only [indexFieldBytePosAux, if_neg hgf, hfs] at hoff
          exact hrec f off v hoff hv hnn
    | some v =>
      have hcv : compatB fs v = true := by
        have hc := hcompat g (List.mem_cons_self _ _) v hlv
        rwa [hfs, Option.getD_some] at hc
      have hblen : v.bytes.length ≤ fs.byte_size :=
        bytes_length_le_of_compat fs v hcv
      have hwb : pos + v.bytes.length ≤ buf.length := by omega
      have hb1len : (writeBytesAt buf pos v.bytes).length = buf.length :=
        writeBytesAt_length _ _ _ hwb
      obtain ⟨buf'', heq, hlen, htake, hdrop, hrec⟩ :=
        ih (pos + fs.byte_size) (writeBytesAt buf pos v.bytes) sizes' hsz'
          (fun f hf v hv => hcompat f (List.mem_cons_of_mem _ hf) v hv)
          (by rw [hb1len]; omega)
      refine ⟨buf'', ?_, by rw [hlen, hb1len], ?_, ?_, ?_⟩
      · simp only [indexRowWriteAux]
        rw [hfs]
        rw [hredF]
        rw [hlv]
        rw [hps]
        exact heq
      · intro n hn
        rw [htake n (by omega)]
        exact writeBytesAt_take_le buf pos v.bytes n (by omega) hn
      · intro n hn
        simp only [List.sum_cons] at hn
        rw [hdrop n (by omega)]
        exact writeBytesAt_drop_ge buf pos v.bytes n hwb (by omega)
      · intro f off v0 hoff hv hnn
        by_cases hgf : g = f
        · simp only [indexFieldBytePosAux, if_pos hgf,
            Option.some.injEq] at hoff
          subst hoff
          rw [← hgf] at hv
          rw [hlv] at hv
          have hv' : v = v0 := by
            simp only [Option.some.injEq] at hv
            exact hv
          subst hv'
          rw [List.take_drop]
          rw [htake (pos + v.bytes.length) (by omega)]
          rw [← List.take_drop]
          rw [writeBytesAt_drop_self buf pos v.bytes (by omega)]
          exact List.take_left' rfl
        · simp only [indexFieldBytePosAux, if_neg hgf, hfs] at hoff
          exact hrec f off v0 hoff hv hnn

/-- The data-row write fold (schema.rs lines 83-85) writes each supplied
value only inside its own field's byte region: any declared field the
value list leaves untouched (absent, or supplied as `NULL`) keeps its
bytes from the initial buffer. -/
theorem data_row_fold_frame (schema : TableSchema)
    (hnodup : (schema.fields.map Prod.fst).Nodup) :
    ∀ (values : List (String × Value)) (buf out : List ℕ),
      (values.map Prod.fst).Nodup →
      buf.length = schema.row_byte_size →
      (∀ p ∈ values,
        compatB ((schema.fieldSchema? p.1).getD FieldSchema.U8) p.2 = true) →
      values.foldlM
        (fun buf nv => do
          let pos ← schema.field_byte_pos? nv.1
          pure (writeBytesAt buf pos nv.2.bytes))
        buf = some out →
      out.length = buf.length ∧
      ∀ (k : ℕ) (f : String) (fs : FieldSchema)
        (rest : List (String × FieldSchema)),
        schema.fields.drop k = (f, fs) :: rest →
        (values.lookup f = none ∨ values.lookup f = some Value.NULL) →
        (out.drop (sizePrefix schema.fields k)).take fs.byte_size =
          (buf.drop (sizePrefix schema.fields k)).take fs.byte_size := by
  intro values
  induction values with
  | nil =>
    intro buf out _ hblen _ hfold
    have h' : some buf = some out := hfold
    simp only [Option.some.injEq] at h'
    subst h'
    exact ⟨rfl, fun _ _ _ _ _ _ => rfl⟩
  | cons nv values ih =>
    intro buf out hnodupv hblen hcompat hfold
    obtain ⟨n, v⟩ := nv
    simp only [List.map_cons, List.nodup_cons] at hnodupv
    rw [List.foldlM_cons] at hfold
    simp only [] at hfold
    cases hpos : schema.field_byte_pos? n with
    | none =>
      rw [hpos] at hfold
      have h' : (none : Option (List ℕ)) = some out := hfold
      simp at h'
    | some p =>
      rw [hpos] at hfold
      have hred1 : ∀ (a : ℕ) (g : ℕ → Option (List ℕ)),
          (some a >>= g) = g a := fun _ _ => rfl
      rw [hred1] at hfold
      have hred2 : ∀ (a : List ℕ) (g : List ℕ → Option (List ℕ)),
          ((pure a : Option (List ℕ)) >>= g) = g a := fun _ _ => rfl
      rw [hred2] at hfold
      obtain ⟨j, fsn, rest', hdropj, hpj⟩ :=
        fieldBytePosAux_some_inv schema.fields n p hpos
      obtain ⟨hgetj, hjlt, -⟩ :=
        drop_cons_getD ("", FieldSchema.U8) schema.fields j (n, fsn) rest'
          hdropj
      have hlookn : schema.fieldSchema? n = some fsn :=
        lookup_eq_of_drop_cons schema.fields j n fsn rest' hdropj hnodup
      have hcv : compatB fsn v = true := by
        have hc := hcompat (n, v) (List.mem_cons_self _ _)
        rwa [hlookn, Option.getD_some] at hc
      have hble : v.bytes.length ≤ fsn.byte_size :=
        bytes_length_le_of_compat fsn v hcv
      have hnextj : sizePrefix schema.fields (j + 1) =
          sizePrefix schema.fields j + fsn.byte_size := by
        rw [sizePrefix_succ_getD hjlt, hgetj]
      have hboundj : sizePrefix schema.fields j + fsn.byte_size ≤
          schema.row_byte_size := by
        rw [← hnextj]
        exact sizePrefix_le_row schema.fields (j + 1)
      have hwb : p + v.bytes.length ≤ buf.length := by omega
      have hb1len : (writeBytesAt buf p v.bytes).length = buf.length :=
        writeBytesAt_length _ _ _ hwb
      obtain ⟨hlenIH, hframeIH⟩ :=
        ih (writeBytesAt buf p v.bytes) out hnodupv.2
          (by rw [hb1len, hblen])
          (fun q hq => hcompat q (List.mem_cons_of_mem _ hq)) hfold
      constructor
      · rw [hlenIH, hb1len]
      · intro k f fs rest hdropk hnull
        obtain ⟨hgetk, hklt, -⟩ :=
          drop_cons_getD ("", FieldSchema.U8) schema.fields k (f, fs) rest
            hdropk
        have hnextk : sizePrefix schema.fields (k + 1) =
            sizePrefix schema.fields k + fs.byte_size := by
          rw [sizePrefix_succ_getD hklt, hgetk]
        by_cases hnf : n = f
        · -- the head entry is this very field: it must be NULL, so the
          -- head write is empty and the tail never touches the field again
          have hlcons : ((n, v) :: values).lookup f = some v := by
            rw [hnf]
            simp
          have hvnull : v = Value.NULL := by
            rcases hnull with hnone | hsome
            · rw [hlcons] at hnone
              cases hnone
            · rw [hlcons] at hsome
              simp only [Option.some.injEq] at hsome
              exact hsome
          have hltail : values.lookup f = none := by
            rw [List.lookup_eq_none_iff]
            intro q hq
            simp only [bne_iff_ne]
            intro hc
            exact hnodupv.1
              (by rw [hnf, hc]; exact List.mem_map_of_mem Prod.fst hq)
          have h1 := hframeIH k f fs rest hdropk (Or.inl hltail)
          rw [h1, hvnull]
          rw [show (Value.NULL).bytes = ([] : List ℕ) from rfl]
          rw [writeBytesAt_nil]
        · -- a different field: its write region is disjoint
          have hbeq : (f == n) = false := by
            rw [beq_eq_false_iff_ne]
            exact fun hc => hnf hc.symm
          have hnulltail : values.lookup f = none ∨
              values.lookup f = some Value.NULL := by
            simpa only [List.lookup, hbeq] using hnull
          have hkj : k ≠ j := by
            intro hc
            rw [hc] at hgetk
            have hp : (f, fs) = (n, fsn) := by rw [← hgetk, hgetj]
            exact hnf (congrArg Prod.fst hp).symm
          have hdisj : p + v.bytes.length ≤ sizePrefix schema.fields k ∨
              sizePrefix schema.fields k + fs.byte_size ≤ p := by
            rcases Nat.lt_or_ge k j with hlt | hge
            · right
              have h1 := sizePrefix_mono schema.fields
                (show k + 1 ≤ j from hlt)
              omega
            · left
              have hlt2 : j + 1 ≤ k := by omega
              have h1 := sizePrefix_mono schema.fields hlt2
              omega
          rw [hframeIH k f fs rest hdropk hnulltail]
          exact writeBytesAt_frame buf p v.bytes
            (sizePrefix schema.fields k) fs.byte_size hwb hdisj

/-- Concrete schema for the codec round-trip instances: three `I32`
fields and the index `i1(f1, f2)` (the shape of schema.rs's unit test). -/
def wSchema : TableSchema :=
  { name := "testtable",
    fields := [("f1", FieldSchema.I32), ("f2", FieldSchema.I32),
      ("f3", FieldSchema.I32)],
    indices := [("i1", ["f1", "f2"])] }

/-- A 12-byte row image of `wSchema`: the values 1, 2, 3 little-endian. -/
def wRow : List ℕ := [1, 0, 0, 0, 2, 0, 0, 0, 3, 0, 0, 0]

/-- Index-field values for the `wSchema` index instance. -/
def wVals : List (String × Value) := [("f1", Value.I32 1), ("f2", Value.I32 2)]

/-- Insert values for the zero-read-back instance: `f1` supplied as `NULL`,
`f2` omitted, `f3` supplied as 5. -/
def w10Vals : List (String × Value) := [("f1", Value.NULL), ("f3", Value.I32 5)]

/-- The encoded row of `w10Vals` on `wSchema`. -/
def w10Out : List ℕ := [0, 0, 0, 0, 0, 0, 0, 0, 5, 0, 0, 0]

/-! ### Claim theorems -/

/-- C1: the claim states that on `t` with rows `(1,10,100)`, `(2,20,200)`,
`(3,30,300)`, `SELECT FROM t WHERE field1 = 2` (resp. `< 2`, `> 2`) returns
exactly one row map whose entry under the key `"t.field2"` is `I32 20`
(resp. `10`, `30`).  On the src revision of `PBase::run_select_query`
(pbase.rs lines 33-62) this fails: the query's filters are never consulted,
all three rows come back for each of the three operators, and the row maps
are keyed by bare field names (`"field1"`, …), not `"t.field1"`. -/
theorem c1_run_select_query_ignores_filters :
    run_select_query tSchema tBytes (tQuery Ordering.eq) =
      some (Except.ok
        [[("field1", Value.I32 1), ("field2", Value.I32 10), ("field3", Value.I32 100)],
         [("field1", Value.I32 2), ("field2", Value.I32 20), ("field3", Value.I32 200)],
         [("field1", Value.I32 3), ("field2", Value.I32 30), ("field3", Value.I32 300)]]) ∧
    run_select_query tSchema tBytes (tQuery Ordering.lt) =
      run_select_query tSchema tBytes (tQuery Ordering.eq) ∧
    run_select_query tSchema tBytes (tQuery Ordering.gt) =
      run_select_query tSchema tBytes (tQuery Ordering.eq) :=
  ⟨rfl, rfl, rfl⟩

/-- C2: the claim states that after N inserts supplying the fields of index
I the index file of I holds exactly N entries.  On src this fails before
any write: `PBase::find_insert_pos_in_index` (pbase.rs lines 151-218)
unconditionally ends in `unimplemented!()`, so for every input the call
panics (`none` here) and `insert_to_index` (lines 114-149) never writes an
entry — its body computes the position and returns without touching the
file. -/
theorem c2_pbase_find_insert_pos_always_panics
    (index_name : String) (index_file_mmap : List ℕ)
    (index_values : List Value) (schema : TableSchema) :
    pbase_find_insert_pos_in_index index_name index_file_mmap index_values
      schema = none := by
  have hbind : ∀ o : Option (ℤ × ℤ), (o >>= fun _ => (none : Option ℕ)) = none := by
    intro o
    cases o <;> rfl
  unfold pbase_find_insert_pos_in_index
  cases schema.index_row_byte_size? index_name with
  | none => rfl
  | some sz =>
    cases schema.indexFields? index_name with
    | none => rfl
    | some ifs => exact hbind _

/-- C4: for every index byte image whose entries are sorted by the
composite key (index fields in declaration order, each compared through the
order embedding of `Value::cmp`) and every probe key with one value per
index field, `find_insert_pos_in_index` returns the greatest entry
position `p` such that every entry before `p` has composite key ≤ K and
every entry at or after `p` has composite key ≥ K — equal keys insert at
the upper end of the equal band. -/
theorem c4_find_insert_pos_in_index_upper_band
    (schema : TableSchema) (index_name : String) (indexBytes : List ℕ)
    (K : List Value) (rowSize : ℕ) (ifields : List String)
    (fss : List FieldSchema)
    (hrs : schema.index_row_byte_size? index_name = some rowSize)
    (hif : schema.indexFields? index_name = some ifields)
    (hfs : ifields.mapM schema.fieldSchema? = some fss)
    (hKlen : K.length = ifields.length)
    (hKwf : ∀ v ∈ K, v.wfB = true)
    (hKcompat : ∀ m, m < ifields.length →
      compatB (fss.getD m FieldSchema.U8) (K.getD m Value.NULL) = true)
    (hbytes : ∀ b ∈ indexBytes, b < 256)
    (hsorted : ∀ i j : ℕ, i ≤ j → j < indexBytes.length / rowSize →
      lexLE ifields.length (entryKeyZ indexBytes rowSize fss i)
        (entryKeyZ indexBytes rowSize fss j)) :
    ∃ p : ℕ, find_insert_pos_in_index index_name indexBytes K schema = some p ∧
      p ≤ indexBytes.length / rowSize ∧
      (∀ q : ℕ, q < p →
        lexLE ifields.length (entryKeyZ indexBytes rowSize fss q)
          (probeKeyZ fss K)) ∧
      (∀ q : ℕ, p ≤ q → q < indexBytes.length / rowSize →
        lexLE ifields.length (probeKeyZ fss K)
          (entryKeyZ indexBytes rowSize fss q)) ∧
      ∀ p' : ℕ, p' ≤ indexBytes.length / rowSize →
        (∀ q : ℕ, q < p' →
          lexLE ifields.length (entryKeyZ indexBytes rowSize fss q)
            (probeKeyZ fss K)) →
        (∀ q : ℕ, p' ≤ q → q < indexBytes.length / rowSize →
          lexLE ifields.length (probeKeyZ fss K)
            (entryKeyZ indexBytes rowSize fss q)) →
        p' ≤ p := by
  obtain ⟨lr, heq, c1, c2, c3, c4p, c5p, c6p⟩ :=
    findInsertPosAux_spec schema indexBytes K rowSize ifields fss hfs hKlen
      hKwf hKcompat hbytes hsorted ifields 0 (-1)
      ((indexBytes.length / rowSize : ℕ) : ℤ) rfl (by omega) (by omega)
      (by have h0 : (0 : ℤ) ≤ ((indexBytes.length / rowSize : ℕ) : ℤ) :=
            Int.natCast_nonneg _
          omega)
      (le_refl _)
      (fun i _ hle => absurd hle (by omega))
      (fun i hi hge => absurd hge (by omega))
      (fun i _ _ _ g hg => absurd hg (by omega))
  refine ⟨lr.2.toNat, ?_, by omega, ?_, ?_, ?_⟩
  · unfold find_insert_pos_in_index
    rw [hrs]
    have hred1 : ∀ (a : ℕ) (g : ℕ → Option ℕ), (some a >>= g) = g a :=
      fun _ _ => rfl
    rw [hred1]
    rw [hif]
    have hred2 : ∀ (a : List String) (g : List String → Option ℕ),
        (some a >>= g) = g a := fun _ _ => rfl
    rw [hred2]
    have heq0 : findInsertPosAux schema indexBytes K rowSize ifields 0 0 (-1)
        ((indexBytes.length / rowSize : ℕ) : ℤ) = some lr := heq
    rw [heq0]
    rfl
  · intro q hq
    by_cases hcase : (q : ℤ) ≤ lr.1
    · exact Or.inr (c4p q (by omega) hcase)
    · exact Or.inl (c6p q (by omega) (by omega) (by omega))
  · intro q hq1 hq2
    exact Or.inr (c5p q hq2 (by omega))
  · intro p' hp'le hbefore hafter
    by_contra hgt
    push_neg at hgt
    have hpc : lr.2.toNat < indexBytes.length / rowSize := by omega
    have h1 := c5p lr.2.toNat hpc (by omega)
    have h2 := hbefore lr.2.toNat (by omega)
    exact lexLT_asymm h1 h2

/-- C4 witness: the single-field index `fake_index(col1)` of the common.rs
unit test probed over an empty index image. -/
theorem c4_find_insert_pos_in_index_upper_band_witness :
    fakeSchema.index_row_byte_size? "fake_index" = some 12 ∧
    ∃ p : ℕ, find_insert_pos_in_index "fake_index" [] [Value.I32 2]
        fakeSchema = some p ∧
      p ≤ ([] : List ℕ).length / 12 ∧
      (∀ q : ℕ, q < p →
        lexLE (["col1"] : List String).length
          (entryKeyZ [] 12 [FieldSchema.I32] q)
          (probeKeyZ [FieldSchema.I32] [Value.I32 2])) ∧
      (∀ q : ℕ, p ≤ q → q < ([] : List ℕ).length / 12 →
        lexLE (["col1"] : List String).length
          (probeKeyZ [FieldSchema.I32] [Value.I32 2])
          (entryKeyZ [] 12 [FieldSchema.I32] q)) ∧
      ∀ p' : ℕ, p' ≤ ([] : List ℕ).length / 12 →
        (∀ q : ℕ, q < p' →
          lexLE (["col1"] : List String).length
            (entryKeyZ [] 12 [FieldSchema.I32] q)
            (probeKeyZ [FieldSchema.I32] [Value.I32 2])) →
        (∀ q : ℕ, p' ≤ q → q < ([] : List ℕ).length / 12 →
          lexLE (["col1"] : List String).length
            (probeKeyZ [FieldSchema.I32] [Value.I32 2])
            (entryKeyZ [] 12 [FieldSchema.I32] q)) →
        p' ≤ p :=
  ⟨by decide,
   c4_find_insert_pos_in_index_upper_band fakeSchema "fake_index" []
     [Value.I32 2] 12 ["col1"] [FieldSchema.I32] (by decide) (by decide)
     (by decide) (by decide) (by decide) (by decide)
     (by simp)
     (fun i j _ hj => by simp at hj)⟩

/-- C3: an inner-join step on a `MultiTableView` produces exactly one row
per pair of (old view row, rhs row inside the selection) whose lhs match
field equals the rhs match field under full `Value` equality; each new row
is the old position list extended with the rhs row's absolute position,
and rows appear in old-row-major, rhs-scan order (stated as the
`bind`/`filter`/`map` characterisation of the new view). -/
theorem c3_inner_join_characterization (mtv : MultiTableView)
    (selection : Selection)
    (lhs_table_name rhs_table_name lhs_match_field_name rhs_match_field_name : String)
    (tableBytes : String → List ℕ) (tableSchemas : String → TableSchema)
    (lhsIdx lpos rpos : ℕ) (lfs rfs : FieldSchema)
    (hlookup : (insertTab mtv.tables rhs_table_name mtv.tables.length).lookup
      lhs_table_name = some lhsIdx)
    (hlpos : (tableSchemas lhs_table_name).field_byte_pos? lhs_match_field_name =
      some lpos)
    (hlfs : (tableSchemas lhs_table_name).fieldSchema? lhs_match_field_name =
      some lfs)
    (hrpos : (tableSchemas rhs_table_name).field_byte_pos? rhs_match_field_name =
      some rpos)
    (hrfs : (tableSchemas rhs_table_name).fieldSchema? rhs_match_field_name =
      some rfs) :
    mtv.inner_join selection lhs_table_name rhs_table_name lhs_match_field_name
      rhs_match_field_name tableBytes tableSchemas =
    some (MultiTableView.mk
      (mtv.view.flatMap (fun oldRow =>
        ((selectionPositions selection
            (tableSchemas rhs_table_name).row_byte_size
            (tableBytes rhs_table_name).length).filter (fun pos =>
          decide (lfs.value_from_bytes
              (((tableBytes lhs_table_name).drop (oldRow.getD lhsIdx 0)).drop lpos) =
            rfs.value_from_bytes
              ((((tableBytes rhs_table_name).drop pos).take
                (tableSchemas rhs_table_name).row_byte_size).drop rpos)))).map
          (fun pos => oldRow ++ [pos])))
      (insertTab mtv.tables rhs_table_name mtv.tables.length)) := by
  have hredV : ∀ (a : ℕ) (g : ℕ → Option Value), (some a >>= g) = g a :=
    fun _ _ => rfl
  have hgl : ∀ rb : List ℕ,
      get_field_value? (tableSchemas lhs_table_name) rb lhs_match_field_name =
        some (lfs.value_from_bytes (rb.drop lpos)) := by
    intro rb
    unfold get_field_value?
    rw [hlpos, hredV, hlfs]
    rfl
  have hgr : ∀ rb : List ℕ,
      get_field_value? (tableSchemas rhs_table_name) rb rhs_match_field_name =
        some (rfs.value_from_bytes (rb.drop rpos)) := by
    intro rb
    unfold get_field_value?
    rw [hrpos, hredV, hrfs]
    rfl
  have hinner : ∀ (oldRow : List ℕ) (lv : Value) (positions : List ℕ)
      (acc : List (List ℕ)),
      positions.foldlM (fun acc2 pos => do
        let rhs_value ← get_field_value? (tableSchemas rhs_table_name)
          (((tableBytes rhs_table_name).drop pos).take
            (tableSchemas rhs_table_name).row_byte_size) rhs_match_field_name
        pure (if lv = rhs_value then acc2 ++ [oldRow ++ [pos]] else acc2)) acc =
      some (acc ++ (positions.filter (fun pos =>
        decide (lv = rfs.value_from_bytes
          ((((tableBytes rhs_table_name).drop pos).take
            (tableSchemas rhs_table_name).row_byte_size).drop rpos)))).map
        (fun pos => oldRow ++ [pos])) := by
    intro oldRow lv positions
    induction positions with
    | nil =>
      intro acc
      simp
    | cons p ps ih =>
      intro acc
      rw [List.foldlM_cons]
      rw [hgr]
      have hpush : (some (rfs.value_from_bytes
          ((((tableBytes rhs_table_name).drop p).take
            (tableSchemas rhs_table_name).row_byte_size).drop rpos)) >>=
          fun rhs_value => pure (if lv = rhs_value then acc ++ [oldRow ++ [p]]
            else acc)) =
          some (if lv = rfs.value_from_bytes
            ((((tableBytes rhs_table_name).drop p).take
              (tableSchemas rhs_table_name).row_byte_size).drop rpos)
            then acc ++ [oldRow ++ [p]] else acc) := rfl
      have hredL : ∀ (a : List (List ℕ)) (g : List (List ℕ) → Option (List (List ℕ))),
          (some a >>= g) = g a := fun _ _ => rfl
      by_cases hv2 : lv = rfs.value_from_bytes
          ((((tableBytes rhs_table_name).drop p).take
            (tableSchemas rhs_table_name).row_byte_size).drop rpos)
      · rw [hpush, if_pos hv2, hredL, ih]
        simp [List.filter_cons, hv2]
      · rw [hpush, if_neg hv2, hredL, ih]
        simp [List.filter_cons, hv2]
  have houter : ∀ (rows : List (List ℕ)) (acc : List (List ℕ)),
      rows.foldlM (fun acc oldRow => do
        let lhs_value ← get_field_value? (tableSchemas lhs_table_name)
          ((tableBytes lhs_table_name).drop (oldRow.getD lhsIdx 0))
          lhs_match_field_name
        (selectionPositions selection
          (tableSchemas rhs_table_name).row_byte_size
          (tableBytes rhs_table_name).length).foldlM (fun acc2 pos => do
            let rhs_value ← get_field_value? (tableSchemas rhs_table_name)
              (((tableBytes rhs_table_name).drop pos).take
                (tableSchemas rhs_table_name).row_byte_size)
              rhs_match_field_name
            pure (if lhs_value = rhs_value then acc2 ++ [oldRow ++ [pos]]
              else acc2)) acc) acc =
      some (acc ++ rows.flatMap (fun oldRow =>
        ((selectionPositions selection
            (tableSchemas rhs_table_name).row_byte_size
            (tableBytes rhs_table_name).length).filter (fun pos =>
          decide (lfs.value_from_bytes
              (((tableBytes lhs_table_name).drop (oldRow.getD lhsIdx 0)).drop lpos) =
            rfs.value_from_bytes
              ((((tableBytes rhs_table_name).drop pos).take
                (tableSchemas rhs_table_name).row_byte_size).drop rpos)))).map
          (fun pos => oldRow ++ [pos]))) := by
    intro rows
    induction rows with
    | nil =>
      intro acc
      simp
    | cons r rs ih =>
      intro acc
      rw [List.foldlM_cons]
      rw [hgl]
      have hstep : (some (lfs.value_from_bytes
          (((tableBytes lhs_table_name).drop (r.getD lhsIdx 0)).drop lpos)) >>=
          fun lhs_value =>
            (selectionPositions selection
              (tableSchemas rhs_table_name).row_byte_size
              (tableBytes rhs_table_name).length).foldlM (fun acc2 pos => do
                let rhs_value ← get_field_value? (tableSchemas rhs_table_name)
                  (((tableBytes rhs_table_name).drop pos).take
                    (tableSchemas rhs_table_name).row_byte_size)
                  rhs_match_field_name
                pure (if lhs_value = rhs_value then acc2 ++ [r ++ [pos]]
                  else acc2)) acc) =
          (selectionPositions selection
            (tableSchemas rhs_table_name).row_byte_size
            (tableBytes rhs_table_name).length).foldlM (fun acc2 pos => do
              let rhs_value ← get_field_value? (tableSchemas rhs_table_name)
                (((tableBytes rhs_table_name).drop pos).take
                  (tableSchemas rhs_table_name).row_byte_size)
                rhs_match_field_name
              pure (if lfs.value_from_bytes
                  (((tableBytes lhs_table_name).drop (r.getD lhsIdx 0)).drop lpos) =
                  rhs_value then acc2 ++ [r ++ [pos]] else acc2)) acc := rfl
      rw [hstep, hinner]
      have hredL2 : ∀ (a : List (List ℕ))
          (g : List (List ℕ) → Option (List (List ℕ))),
          (some a >>= g) = g a := fun _ _ => rfl
      rw [hredL2, ih]
      simp
  simp only [MultiTableView.inner_join]
  rw [hlookup]
  have hredN : ∀ (a : ℕ) (g : ℕ → Option MultiTableView), (some a >>= g) = g a :=
    fun _ _ => rfl
  rw [hredN]
  rw [houter mtv.view []]
  simp

/-- C3 witness: the multi_table_view.rs unit test: `t1(id: u8)` with rows
`0,1,2,3`, `t2(t1_id: u8)` with rows `1,2,3,7,8`, selection `[0,1,3,4]`;
the join on `id = t1_id` yields the view `[[1,0],[2,1]]`. -/
theorem c3_inner_join_characterization_witness :
    (MultiTableView.inner_join
      { view := [[0],[1],[2],[3]], tables := [("t1", 0)] }
      (Selection.List [0,1,3,4]) "t1" "t2" "id" "t1_id"
      (fun s => if s = "t1" then [0,1,2,3] else [1,2,3,7,8])
      (fun s => if s = "t1" then
          { name := "t1", fields := [("id", FieldSchema.U8)], indices := [] }
        else
          { name := "t2", fields := [("t1_id", FieldSchema.U8)], indices := [] })) =
      some { view := [[1,0],[2,1]], tables := [("t1", 0), ("t2", 1)] } := by
  rw [c3_inner_join_characterization _ _ _ _ _ _ _ _ 0 0 0 FieldSchema.U8
    FieldSchema.U8 (by decide) (by decide) (by decide) (by decide) (by decide)]
  decide

/-- C5: the claim states the linear scan returns exactly the selection
positions (each at most once) whose row satisfies **every** remaining
filter.  The src loop (query_tools.rs lines 333-353) instead pushes the
position once per satisfied filter: over the single row `(5)` of table
`c(f1: u8)`, with filters `f1 = 5` and `f1 > 7` the row fails the second
filter yet position 0 is returned, and with `f1 = 5` and `f1 > 3` (both
satisfied) position 0 is returned twice. -/
theorem c5_scan_filter_pushes_per_filter :
    scan_filter Selection.All [cFilter Ordering.eq 5, cFilter Ordering.gt 7]
        [5] cSchema = some (Selection.List [0]) ∧
    scan_filter Selection.All [cFilter Ordering.eq 5, cFilter Ordering.gt 3]
        [5] cSchema = some (Selection.List [0, 0]) :=
  ⟨rfl, rfl⟩

/-- C6: the claim states `SELECT FROM s WHERE f1 = f2` (rhs a reference to
`f2` of the same table) succeeds with exactly the two rows `(2,2)`, `(1,1)`.
On src this fails along every path: the facade `run_select_query` ignores
the filter and returns all four rows keyed by bare names; classifying the
filter panics, because `FilterSource::new_multi` (query.rs lines 37-44)
asserts that the two tables differ; and `scan_filter` hits the `todo!()` of
its reference branch (query_tools.rs line 344). -/
theorem c6_same_table_reference_filter_unsupported :
    run_select_query sSchema sBytes sQuery =
      some (Except.ok
        [[("f1", Value.U8 2), ("f2", Value.U8 2)],
         [("f1", Value.U8 3), ("f2", Value.U8 4)],
         [("f1", Value.U8 1), ("f2", Value.U8 1)],
         [("f1", Value.U8 6), ("f2", Value.U8 5)]]) ∧
    sRefFilter.filter_source? = none ∧
    scan_filter Selection.All [sRefFilter] sBytes sSchema = none :=
  ⟨rfl, rfl, rfl⟩

/-- C7: for exclusive bounds `lhs < rhs` and the comparator induced by a
sorted sequence `vals` and target `t`, `binary_narrow_to_range_exclusive`
returns `(L, R)` with `L` the last index whose value is less than the
target (or `lhs` when none exists) and `R` the first index whose value is
greater (or `rhs`); and concretely, probing `[0,0,0,1,1,1,3,3,3]` over
`(-1, 9)` returns `(2,6)` for target 1, `(5,6)` for target 2, `(-1,0)` for
target -10 and `(8,9)` for target 10. -/
theorem c7_binary_narrow_to_range_exclusive_spec :
    (∀ (lhs rhs t : ℤ) (vals : ℤ → ℤ), lhs < rhs →
      (∀ x y : ℤ, lhs < x → x ≤ y → y < rhs → vals x ≤ vals y) →
      lhs ≤ (binary_narrow_to_range_exclusive lhs rhs
        (fun i => cmpInt (vals i) t)).1 ∧
      (binary_narrow_to_range_exclusive lhs rhs (fun i => cmpInt (vals i) t)).1 <
        (binary_narrow_to_range_exclusive lhs rhs (fun i => cmpInt (vals i) t)).2 ∧
      (binary_narrow_to_range_exclusive lhs rhs (fun i => cmpInt (vals i) t)).2 ≤ rhs ∧
      ((binary_narrow_to_range_exclusive lhs rhs (fun i => cmpInt (vals i) t)).1 = lhs ∨
        vals (binary_narrow_to_range_exclusive lhs rhs (fun i => cmpInt (vals i) t)).1 < t) ∧
      (∀ k : ℤ,
        (binary_narrow_to_range_exclusive lhs rhs (fun i => cmpInt (vals i) t)).1 < k →
        k < rhs → ¬ vals k < t) ∧
      ((binary_narrow_to_range_exclusive lhs rhs (fun i => cmpInt (vals i) t)).2 = rhs ∨
        t < vals (binary_narrow_to_range_exclusive lhs rhs (fun i => cmpInt (vals i) t)).2) ∧
      (∀ k : ℤ, lhs < k →
        k < (binary_narrow_to_range_exclusive lhs rhs (fun i => cmpInt (vals i) t)).2 →
        ¬ t < vals k)) ∧
    binary_narrow_to_range_exclusive (-1) 9 (fun i => cmpInt (probeSeq i) 1) = (2, 6) ∧
    binary_narrow_to_range_exclusive (-1) 9 (fun i => cmpInt (probeSeq i) 2) = (5, 6) ∧
    binary_narrow_to_range_exclusive (-1) 9 (fun i => cmpInt (probeSeq i) (-10)) = (-1, 0) ∧
    binary_narrow_to_range_exclusive (-1) 9 (fun i => cmpInt (probeSeq i) 10) = (8, 9) := by
  have monoOf : ∀ t : ℤ, ∀ x y : ℤ, -1 < x → x ≤ y → y < 9 →
      ordRank ((fun i => cmpInt (probeSeq i) t) x) ≤
        ordRank ((fun i => cmpInt (probeSeq i) t) y) :=
    fun t x y hx hxy hy => cmpInt_rank_mono (probeSeq_mono x y hx hxy hy)
  refine ⟨?_, ?_, ?_, ?_, ?_⟩
  · intro lhs rhs t vals hlr hmono
    have mono' : ∀ x y : ℤ, lhs < x → x ≤ y → y < rhs →
        ordRank ((fun i => cmpInt (vals i) t) x) ≤
          ordRank ((fun i => cmpInt (vals i) t) y) :=
      fun x y hx hxy hy => cmpInt_rank_mono (hmono x y hx hxy hy)
    obtain ⟨a1, a2, a3, a4, a5, a6, a7⟩ :=
      binary_narrow_spec lhs rhs (fun i => cmpInt (vals i) t) hlr mono'
    refine ⟨a1, a2, a3, ?_, ?_, ?_, ?_⟩
    · rcases a4 with hc | hc
      · exact Or.inl hc
      · exact Or.inr (cmpInt_eq_lt.mp hc)
    · intro k hk1 hk2 hk3
      exact a5 k hk1 hk2 (cmpInt_eq_lt.mpr hk3)
    · rcases a6 with hc | hc
      · exact Or.inl hc
      · exact Or.inr (cmpInt_eq_gt.mp hc)
    · intro k hk1 hk2 hk3
      exact a7 k hk1 hk2 (cmpInt_eq_gt.mpr hk3)
  · refine binary_narrow_eq_of (-1) 9 _ (by decide) (monoOf 1) 2 6
      ⟨by decide, by decide, Or.inr (by decide), ?_⟩
      ⟨by decide, by decide, Or.inr (by decide), ?_⟩
    · intro k hk1 hk2
      interval_cases k <;> decide
    · intro k hk1 hk2
      interval_cases k <;> decide
  · refine binary_narrow_eq_of (-1) 9 _ (by decide) (monoOf 2) 5 6
      ⟨by decide, by decide, Or.inr (by decide), ?_⟩
      ⟨by decide, by decide, Or.inr (by decide), ?_⟩
    · intro k hk1 hk2
      interval_cases k <;> decide
    · intro k hk1 hk2
      interval_cases k <;> decide
  · refine binary_narrow_eq_of (-1) 9 _ (by decide) (monoOf (-10)) (-1) 0
      ⟨by decide, by decide, Or.inl rfl, ?_⟩
      ⟨by decide, by decide, Or.inr (by decide), ?_⟩
    · intro k hk1 hk2
      interval_cases k <;> decide
    · intro k hk1 hk2
      omega
  · refine binary_narrow_eq_of (-1) 9 _ (by decide) (monoOf 10) 8 9
      ⟨by decide, by decide, Or.inr (by decide), ?_⟩
      ⟨by decide, by decide, Or.inl rfl, ?_⟩
    · intro k hk1 hk2
      omega
    · intro k hk1 hk2
      interval_cases k <;> decide

/-- C7 witness: the general characterisation instantiated at the constant
sequence 0 over `(-1, 1)` with target 5. -/
theorem c7_binary_narrow_to_range_exclusive_spec_witness :
    ((-1 : ℤ) < 1) ∧
    (-1 : ℤ) ≤ (binary_narrow_to_range_exclusive (-1) 1
        (fun i => cmpInt ((fun _ : ℤ => (0 : ℤ)) i) 5)).1 ∧
      (binary_narrow_to_range_exclusive (-1) 1
        (fun i => cmpInt ((fun _ : ℤ => (0 : ℤ)) i) 5)).1 <
        (binary_narrow_to_range_exclusive (-1) 1
          (fun i => cmpInt ((fun _ : ℤ => (0 : ℤ)) i) 5)).2 :=
  ⟨by decide,
   (c7_binary_narrow_to_range_exclusive_spec.1 (-1) 1 5 (fun _ => 0) (by decide)
     (fun x y _ _ _ => le_refl 0)).1,
   (c7_binary_narrow_to_range_exclusive_spec.1 (-1) 1 5 (fun _ => 0) (by decide)
     (fun x y _ _ _ => le_refl 0)).2.1⟩

/-- C9: a select on a table whose data-file length is not an exact multiple
of the schema's row byte size fails with `InvalidTableSizeError` (and hence
returns no rows), for every query. -/
theorem c9_invalid_table_size (schema : TableSchema) (tableBytes : List ℕ)
    (query : SelectQuery) (hrow : 0 < schema.row_byte_size)
    (hmod : tableBytes.length % schema.row_byte_size ≠ 0) :
    run_select_query schema tableBytes query =
      some (Except.error PBaseError.InvalidTableSizeError) := by
  simp only [run_select_query]
  rw [if_neg (by omega), if_pos hmod]

/-- C9 witness: a 2-byte-row table with a 3-byte data file. -/
theorem c9_invalid_table_size_witness :
    0 < sSchema.row_byte_size ∧
    ([2,2,3] : List ℕ).length % sSchema.row_byte_size ≠ 0 ∧
    run_select_query sSchema [2,2,3] sQuery =
      some (Except.error PBaseError.InvalidTableSizeError) :=
  ⟨by decide, by decide,
   c9_invalid_table_size sSchema [2,2,3] sQuery (by decide) (by decide)⟩

/-- C8: codec round trips (schema.rs lines 79-144).  (1) For every schema
with uniquely-named fields and every byte image `b` of exactly
`row_byte_size` byte values, re-encoding the decoded row reproduces `b`:
`data_row_to_bytes (parse_row_bytes b) = some b`.  (2) For every declared
index all of whose fields are declared, every value map whose entries for
index fields are tag-compatible and well-formed, and every 64-bit row
pointer, `index_row_to_bytes` succeeds; decoding at `index_field_byte_pos`
recovers every supplied non-`NULL` index-field value, and the 8 bytes at
`index_row_ptr_field_byte_pos` read back little-endian as the pointer. -/
theorem c8_codec_round_trip :
    (∀ (schema : TableSchema) (b : List ℕ),
      (schema.fields.map Prod.fst).Nodup →
      b.length = schema.row_byte_size →
      (∀ x ∈ b, x < 256) →
      schema.data_row_to_bytes (schema.parse_row_bytes b) = some b) ∧
    (∀ (schema : TableSchema) (index : String) (ifields : List String)
       (values : List (String × Value)) (ptr : ℕ),
      schema.indexFields? index = some ifields →
      (∀ g ∈ ifields, (schema.fieldSchema? g).isSome = true) →
      (∀ q ∈ values, q.1 ∈ ifields →
        compatB ((schema.fieldSchema? q.1).getD FieldSchema.U8) q.2 = true ∧
          q.2.wfB = true) →
      ptr < 18446744073709551616 →
      ∃ out, schema.index_row_to_bytes index values ptr = some out ∧
        (∀ f ∈ ifields, ∀ v, values.lookup f = some v → v ≠ Value.NULL →
          ∃ off fs, schema.index_field_byte_pos? index f = some off ∧
            schema.fieldSchema? f = some fs ∧
            fs.value_from_bytes (out.drop off) = v) ∧
        ∃ ppos, schema.index_row_ptr_field_byte_pos? index = some ppos ∧
          leVal ((out.drop ppos).take TABLE_PTR_BYTE_SIZE) = ptr) := by
  constructor
  · intro schema b hnodup hblen hblt
    have h := data_row_fold_rebuild schema b hnodup hblen hblt
      schema.fields 0 (List.replicate schema.row_byte_size 0)
      (by simp) (by simp)
    have h0 : sizePrefix schema.fields 0 = 0 := rfl
    rw [h0] at h
    simp only [List.take_zero, List.drop_zero, List.nil_append] at h
    unfold TableSchema.data_row_to_bytes TableSchema.parse_row_bytes
    exact h
  · intro schema index ifields values ptr hif hdecl hvals hptr
    obtain ⟨sizes, hsz⟩ := mapM_some_of_forall
      (fun g => (schema.fieldSchema? g).map FieldSchema.byte_size) ifields
      (fun g hg => by
        obtain ⟨fs, hfs⟩ := Option.isSome_iff_exists.mp (hdecl g hg)
        show (Option.map FieldSchema.byte_size (schema.fieldSchema? g)).isSome =
          true
        rw [hfs]
        rfl)
    have hsizeEq : schema.index_row_byte_size? index =
        some (sizes.sum + TABLE_PTR_BYTE_SIZE) := by
      unfold TableSchema.index_row_byte_size?
      rw [hif]
      have hredL : ∀ (a : List String) (g : List String → Option ℕ),
          (some a >>= g) = g a := fun _ _ => rfl
      rw [hredL]
      rw [hsz]
      have hredS : ∀ (a : List ℕ) (g : List ℕ → Option ℕ),
          (some a >>= g) = g a := fun _ _ => rfl
      rw [hredS]
      rfl
    have hcompat' : ∀ f ∈ ifields, ∀ v, values.lookup f = some v →
        compatB ((schema.fieldSchema? f).getD FieldSchema.U8) v = true := by
      intro f hf v hv
      exact (hvals (f, v) (lookup_mem hv) hf).1
    obtain ⟨buf', heq, hlen, htake, hdrop, hrec⟩ :=
      indexRowWriteAux_spec schema values ifields 0
        (List.replicate (sizes.sum + TABLE_PTR_BYTE_SIZE) 0) sizes hsz
        hcompat'
        (by simp only [List.length_replicate]; omega)
    rw [Nat.zero_add] at heq
    refine ⟨writeBytesAt buf' sizes.sum (le8 ptr), ?_, ?_, ?_⟩
    · unfold TableSchema.index_row_to_bytes
      rw [hsizeEq]
      have hredN : ∀ (a : ℕ) (g : ℕ → Option (List ℕ)),
          (some a >>= g) = g a := fun _ _ => rfl
      rw [hredN]
      rw [hif]
      have hredL : ∀ (a : List String) (g : List String → Option (List ℕ)),
          (some a >>= g) = g a := fun _ _ => rfl
      rw [hredL]
      rw [heq]
      have hredP : ∀ (a : ℕ × List ℕ) (g : ℕ × List ℕ → Option (List ℕ)),
          (some a >>= g) = g a := fun _ _ => rfl
      rw [hredP]
      rfl
    · intro f hf v hv hnn
      obtain ⟨off, hoff⟩ := Option.isSome_iff_exists.mp
        (indexFieldBytePosAux_isSome schema ifields f 0 hf hdecl)
      obtain ⟨fs, hfs⟩ := Option.isSome_iff_exists.mp (hdecl f hf)
      refine ⟨off, fs, ?_, hfs, ?_⟩
      · unfold TableSchema.index_field_byte_pos?
        rw [hif]
        have hredL : ∀ (a : List String) (g : List String → Option ℕ),
            (some a >>= g) = g a := fun _ _ => rfl
        rw [hredL]
        exact hoff
      · have hcv : compatB fs v = true := by
          have hc := (hvals (f, v) (lookup_mem hv) hf).1
          rwa [hfs, Option.getD_some] at hc
        have hwv : v.wfB = true := (hvals (f, v) (lookup_mem hv) hf).2
        have hble : v.bytes.length = fs.byte_size :=
          bytes_length_of_compat fs v hcv hnn
        obtain ⟨hposle, hoffbound⟩ :=
          indexFieldBytePosAux_bound schema ifields f 0 off sizes hoff hsz
        rw [hfs, Option.getD_some] at hoffbound
        have hregion : (buf'.drop off).take v.bytes.length = v.bytes :=
          hrec f off v hoff hv hnn
        have hframe : ((writeBytesAt buf' sizes.sum (le8 ptr)).drop
            off).take fs.byte_size = (buf'.drop off).take fs.byte_size := by
          apply writeBytesAt_frame
          · rw [hlen]
            simp only [List.length_replicate, le8_length,
              TABLE_PTR_BYTE_SIZE]
            omega
          · right
            omega
        have htk : ((writeBytesAt buf' sizes.sum (le8 ptr)).drop off).take
            fs.byte_size = v.bytes := by
          rw [hframe, ← hble, hregion]
        have hfin : fs.value_from_bytes
            ((writeBytesAt buf' sizes.sum (le8 ptr)).drop off) =
            fs.value_from_bytes (v.bytes ++ []) := by
          apply value_from_bytes_eq_of_take
          rw [htk, List.append_nil, List.take_of_length_le (le_of_eq hble)]
        rw [hfin]
        exact value_from_bytes_bytes fs v [] hcv hwv hnn
    · refine ⟨sizes.sum, ?_, ?_⟩
      · unfold TableSchema.index_row_ptr_field_byte_pos?
        rw [hsizeEq]
        simp [TABLE_PTR_BYTE_SIZE]
      · have hS : sizes.sum ≤ buf'.length := by
          rw [hlen]
          simp only [List.length_replicate]
          omega
        rw [writeBytesAt_drop_self buf' sizes.sum (le8 ptr) hS]
        rw [List.take_left'
          (show (le8 ptr).length = TABLE_PTR_BYTE_SIZE from rfl)]
        exact leVal_le8 ptr hptr

/-- C8 witness: the data-row round trip on `wSchema` with the 12-byte row
`(1, 2, 3)`, and the index-row round trip on index `i1` with values
`f1 = 1`, `f2 = 2` and row pointer 7. -/
theorem c8_codec_round_trip_witness :
    wSchema.data_row_to_bytes (wSchema.parse_row_bytes wRow) = some wRow ∧
    (∃ out, wSchema.index_row_to_bytes "i1" wVals 7 = some out ∧
      (∀ f ∈ ["f1", "f2"], ∀ v, wVals.lookup f = some v →
        v ≠ Value.NULL →
        ∃ off fs, wSchema.index_field_byte_pos? "i1" f = some off ∧
          wSchema.fieldSchema? f = some fs ∧
          fs.value_from_bytes (out.drop off) = v) ∧
      ∃ ppos, wSchema.index_row_ptr_field_byte_pos? "i1" = some ppos ∧
        leVal ((out.drop ppos).take TABLE_PTR_BYTE_SIZE) = 7) :=
  ⟨c8_codec_round_trip.1 wSchema wRow (by decide) (by decide) (by decide),
   c8_codec_round_trip.2 wSchema "i1" ["f1", "f2"] wVals 7 (by decide)
     (by decide) (by decide) (by decide)⟩

/-- C10: decoding never yields `NULL` — every entry of `parse_row_bytes`
is a concrete `I32` or `U8` (schema.rs lines 24-35 always build one of the
two constructors) — and hence a declared field that an insert omitted or
supplied as `NULL` reads back from the encoded row as the zero value of
its type (`I32 0` or `U8 0`), never as `Value.NULL`. -/
theorem c10_decode_never_null :
    (∀ (schema : TableSchema) (b : List ℕ) (q : String × Value),
      q ∈ schema.parse_row_bytes b →
      (∃ z, q.2 = Value.I32 z) ∨ (∃ n, q.2 = Value.U8 n)) ∧
    (∀ (schema : TableSchema) (values : List (String × Value))
       (out : List ℕ) (f : String) (fs : FieldSchema),
      (schema.fields.map Prod.fst).Nodup →
      (values.map Prod.fst).Nodup →
      (∀ q ∈ values,
        compatB ((schema.fieldSchema? q.1).getD FieldSchema.U8) q.2 = true) →
      schema.data_row_to_bytes values = some out →
      (f, fs) ∈ schema.fields →
      (values.lookup f = none ∨ values.lookup f = some Value.NULL) →
      ∃ off, schema.field_byte_pos? f = some off ∧
        fs.value_from_bytes (out.drop off) =
          (match fs with
            | FieldSchema.U8 => Value.U8 0
            | FieldSchema.I32 => Value.I32 0)) := by
  constructor
  · intro schema b q hq
    exact parseRowAux_snd b schema.fields 0 q hq
  · intro schema values out f fs hnodup hnodupv hcompat hrow hmem hnull
    obtain ⟨k, hk, hget⟩ := List.getElem_of_mem hmem
    have hdropk : schema.fields.drop k =
        (f, fs) :: schema.fields.drop (k + 1) := by
      rw [List.drop_eq_getElem_cons hk, hget]
    have hoff : schema.field_byte_pos? f =
        some (sizePrefix schema.fields k) :=
      fieldBytePosAux_drop schema.fields k f fs _ hdropk hnodup
    obtain ⟨hlen, hframe⟩ := data_row_fold_frame schema hnodup values
      (List.replicate schema.row_byte_size 0) out hnodupv (by simp)
      hcompat hrow
    have hreg := hframe k f fs _ hdropk hnull
    refine ⟨sizePrefix schema.fields k, hoff, ?_⟩
    obtain ⟨hgetD, hklt, -⟩ :=
      drop_cons_getD ("", FieldSchema.U8) schema.fields k (f, fs) _ hdropk
    have hnextk : sizePrefix schema.fields (k + 1) =
        sizePrefix schema.fields k + fs.byte_size := by
      rw [sizePrefix_succ_getD hklt, hgetD]
    have hbk : sizePrefix schema.fields k + fs.byte_size ≤
        schema.row_byte_size := by
      rw [← hnextk]
      exact sizePrefix_le_row schema.fields (k + 1)
    have hzero : ((List.replicate schema.row_byte_size (0 : ℕ)).drop
        (sizePrefix schema.fields k)).take fs.byte_size =
        List.replicate fs.byte_size (0 : ℕ) := by
      rw [List.drop_replicate, List.take_replicate]
      congr 1
      omega
    have hfin : fs.value_from_bytes
        (out.drop (sizePrefix schema.fields k)) =
        fs.value_from_bytes (List.replicate fs.byte_size (0 : ℕ)) := by
      apply value_from_bytes_eq_of_take
      rw [hreg, hzero, List.take_replicate]
      congr 1
      omega
    rw [hfin]
    cases fs <;> decide

/-- C10 witness: on `wSchema`, the decoded first field of `wRow` is a
concrete `I32`; and inserting `w10Vals` (`f1 = NULL`, `f2` omitted,
`f3 = 5`) encodes to `w10Out`, from which the omitted field `f2` reads
back as `I32 0`. -/
theorem c10_decode_never_null_witness :
    (("f1", Value.I32 1) ∈ wSchema.parse_row_bytes wRow ∧
      ((∃ z, (("f1", Value.I32 1) : String × Value).2 = Value.I32 z) ∨
        (∃ n, (("f1", Value.I32 1) : String × Value).2 = Value.U8 n))) ∧
    (wSchema.data_row_to_bytes w10Vals = some w10Out ∧
      ∃ off, wSchema.field_byte_pos? "f2" = some off ∧
        FieldSchema.I32.value_from_bytes (w10Out.drop off) = Value.I32 0) :=
  ⟨⟨by decide, c10_decode_never_null.1 wSchema wRow _ (by decide)⟩,
   ⟨by decide,
    c10_decode_never_null.2 wSchema w10Vals w10Out "f2" FieldSchema.I32
      (by decide) (by decide) (by decide) (by decide) (by decide)
      (Or.inl (by decide))⟩⟩

end Pbase
